import Mathlib

/-!
Verification of the sBB piecewise-linear optimization core
(`Algorithms/sBB_functions.py`, `Algorithms/sBB_main.py`).

Python floats are modelled by rationals (`ℚ`), Python lists by `List`.
`bisect.bisect` / `bisect.bisect_left` are modelled by linear scans that
agree with binary search on sorted input (the only inputs the program
feeds them).  Python indexing `l[i]` is modelled by `List.getD` with
default `0`; theorems carry the hypotheses under which the Python code
would not raise `IndexError`, so the defaults are never exercised.
-/

namespace SBB

/-- The problem tags the source compares against string literals
(`"knapsack"`, `"concave-knapsack"`, `"global-knapsack"`,
`"network flow"`, `"discontinuous network flow"`). -/
inductive Problem
  | knapsack
  | concaveKnapsack
  | globalKnapsack
  | networkFlow
  | discNetworkFlow
  deriving DecidableEq, Repr

/-- Model of `bisect.bisect(xs, p)` (= `bisect_right`): the number of leading
elements `≤ p`; on a sorted list this is the insertion point after any run of
elements equal to `p`, i.e. the index of the first element `> p`. -/
def bisect_right (xs : List ℚ) (p : ℚ) : ℕ :=
  match xs with
  | [] => 0
  | x :: t => if p < x then 0 else bisect_right t p + 1

/-- Model of `bisect.bisect_left(xs, p)`: on a sorted list, the index of the
first element `≥ p`. -/
def bisect_left (xs : List ℚ) (p : ℚ) : ℕ :=
  match xs with
  | [] => 0
  | x :: t => if p ≤ x then 0 else bisect_left t p + 1

/-- The interpolation expression
`((y[pos]-y[pos-1])/(x[pos]-x[pos-1]))*(point-x[pos-1])+y[pos-1]`
that appears verbatim in `getPLFvalue` and (twice) in `getEnvelope`. -/
def interpAt (breakpoints_x breakpoints_y : List ℚ) (pos : ℕ) (point : ℚ) : ℚ :=
  (breakpoints_y.getD pos 0 - breakpoints_y.getD (pos - 1) 0)
      / (breakpoints_x.getD pos 0 - breakpoints_x.getD (pos - 1) 0)
      * (point - breakpoints_x.getD (pos - 1) 0)
    + breakpoints_y.getD (pos - 1) 0

/-- `getPLFvalue` from `sBB_functions.py` (lines 23-40). -/
def getPLFvalue (breakpoints_x breakpoints_y : List ℚ) (point : ℚ)
    (problem : Problem) : ℚ :=
  if point ≤ breakpoints_x.headD 0 then
    if problem = Problem.discNetworkFlow then 0 else breakpoints_y.headD 0
  else if breakpoints_x.getLastD 0 ≤ point then
    breakpoints_y.getLastD 0
  else
    interpAt breakpoints_x breakpoints_y (bisect_right breakpoints_x point) point

/-! ### Basic facts about the bisect models -/

theorem bisect_right_le_length (xs : List ℚ) (p : ℚ) :
    bisect_right xs p ≤ xs.length := by
  induction xs with
  | nil => simp [bisect_right]
  | cons x t ih =>
    simp only [bisect_right, List.length_cons]
    split
    · omega
    · omega

theorem bisect_right_getD_le (xs : List ℚ) (p : ℚ) (j : ℕ)
    (h : j < bisect_right xs p) : xs.getD j 0 ≤ p := by
  induction xs generalizing j with
  | nil => simp [bisect_right] at h
  | cons x t ih =>
    simp only [bisect_right] at h
    by_cases hx : p < x
    · simp [hx] at h
    · simp only [hx, if_false] at h
      cases j with
      | zero => exact le_of_not_lt hx
      | succ j => simpa using ih j (by omega)

theorem bisect_right_getD_gt (xs : List ℚ) (p : ℚ)
    (h : bisect_right xs p < xs.length) : p < xs.getD (bisect_right xs p) 0 := by
  induction xs with
  | nil => simp [bisect_right] at h
  | cons x t ih =>
    simp only [bisect_right] at h ⊢
    by_cases hx : p < x
    · simp only [hx, if_true]
      exact hx
    · simp only [hx, if_false] at h ⊢
      simpa using ih (by simpa using h)

theorem bisect_right_pos (x : ℚ) (t : List ℚ) (p : ℚ) (h : x ≤ p) :
    1 ≤ bisect_right (x :: t) p := by
  simp [bisect_right, not_lt.mpr h]

theorem bisect_left_le_length (xs : List ℚ) (p : ℚ) :
    bisect_left xs p ≤ xs.length := by
  induction xs with
  | nil => simp [bisect_left]
  | cons x t ih =>
    simp only [bisect_left, List.length_cons]
    split
    · omega
    · omega

theorem bisect_left_getD_lt (xs : List ℚ) (p : ℚ) (j : ℕ)
    (h : j < bisect_left xs p) : xs.getD j 0 < p := by
  induction xs generalizing j with
  | nil => simp [bisect_left] at h
  | cons x t ih =>
    simp only [bisect_left] at h
    by_cases hx : p ≤ x
    · simp [hx] at h
    · simp only [hx, if_false] at h
      cases j with
      | zero => exact lt_of_not_le hx
      | succ j => simpa using ih j (by omega)

theorem bisect_left_getD_ge (xs : List ℚ) (p : ℚ)
    (h : bisect_left xs p < xs.length) : p ≤ xs.getD (bisect_left xs p) 0 := by
  induction xs with
  | nil => simp [bisect_left] at h
  | cons x t ih =>
    simp only [bisect_left] at h ⊢
    by_cases hx : p ≤ x
    · simp only [hx, if_true]
      exact hx
    · simp only [hx, if_false] at h ⊢
      simpa using ih (by simpa using h)

/-- The Python `l[-1]` access: `getLastD` as a positional access. -/
theorem getLastD_eq_getD (xs : List ℚ) :
    xs.getLastD 0 = xs.getD (xs.length - 1) 0 := by
  rw [List.getLastD_eq_getLast?, List.getLast?_eq_getElem?, ← List.getD_eq_getElem?_getD]

/-- On a list whose last element exceeds `p`, `bisect_right` stays in range. -/
theorem bisect_right_lt_length (xs : List ℚ) (p : ℚ) (hne : xs ≠ [])
    (h : p < xs.getLastD 0) : bisect_right xs p < xs.length := by
  rcases Nat.lt_or_ge (bisect_right xs p) xs.length with hlt | hge
  · exact hlt
  · exfalso
    have hpos : 0 < xs.length := List.length_pos.mpr hne
    have hle : xs.getD (xs.length - 1) 0 ≤ p :=
      bisect_right_getD_le xs p (xs.length - 1) (by omega)
    rw [getLastD_eq_getD] at h
    exact absurd hle (not_le.mpr h)

/-- The Python `l[0]` access: `headD` as a positional access. -/
theorem headD_eq_getD (xs : List ℚ) : xs.headD 0 = xs.getD 0 0 := by
  cases xs <;> rfl

theorem getD_eq_getElem (xs : List ℚ) (i : ℕ) (h : i < xs.length) :
    xs.getD i 0 = xs[i] := by
  rw [List.getD_eq_getElem?_getD, List.getElem?_eq_getElem h]
  rfl

/-- Strictly sorted lists compare by position. -/
theorem pairwise_lt_getD (xs : List ℚ) (hs : List.Pairwise (· < ·) xs)
    (i j : ℕ) (hij : i < j) (hj : j < xs.length) :
    xs.getD i 0 < xs.getD j 0 := by
  rw [getD_eq_getElem xs i (lt_trans hij hj), getD_eq_getElem xs j hj]
  exact List.pairwise_iff_getElem.mp hs i j (lt_trans hij hj) hj hij

theorem pairwise_le_getD (xs : List ℚ) (hs : List.Pairwise (· ≤ ·) xs)
    (i j : ℕ) (hij : i ≤ j) (hj : j < xs.length) :
    xs.getD i 0 ≤ xs.getD j 0 := by
  rcases Nat.lt_or_ge i j with hlt | hge
  · rw [getD_eq_getElem xs i (lt_trans hlt hj), getD_eq_getElem xs j hj]
    exact List.pairwise_iff_getElem.mp hs i j (lt_trans hlt hj) hj hlt
  · have : i = j := le_antisymm hij hge
    rw [this]

/-- `bisect_right` is determined by the characteristic property of the
insertion point. -/
theorem bisect_right_eq_of (xs : List ℚ) (p : ℚ) (m : ℕ)
    (hm : m ≤ xs.length)
    (hle : ∀ j, j < m → xs.getD j 0 ≤ p)
    (hgt : m < xs.length → p < xs.getD m 0) :
    bisect_right xs p = m := by
  induction xs generalizing m with
  | nil => simp only [List.length_nil, Nat.le_zero] at hm; simp [bisect_right, hm]
  | cons x t ih =>
    simp only [bisect_right]
    by_cases hx : p < x
    · simp only [hx, if_true]
      rcases Nat.eq_zero_or_pos m with h0 | h0
      · omega
      · have hx0 := hle 0 h0
        simp only [List.getD_cons_zero] at hx0
        exact absurd hx0 (not_le.mpr hx)
    · simp only [hx, if_false]
      cases m with
      | zero =>
        have hx0 := hgt (by simp)
        simp only [List.getD_cons_zero] at hx0
        exact absurd hx0 hx
      | succ m =>
        have := ih m (by simpa using hm)
          (fun j hj => by
            have := hle (j + 1) (by omega)
            simpa using this)
          (fun h => by
            have := hgt (by simpa using h)
            simpa using this)
        omega

/-! ### Claim C3: left-boundary behaviour of `getPLFvalue` -/

/-- Claim C3 counterexample: the code checks only the problem tag, never the
sign of `x₀`.  With breakpoints starting at `x₀ = 1 > 0` and the
`discontinuous network flow` tag, `getPLFvalue` at `0 ≤ x₀` returns `0`,
not `y₀ = 5` as the claim predicts for `x₀ > 0`. -/
theorem getPLFvalue_jump_ignores_x0_sign :
    getPLFvalue [1, 2] [5, 6] 0 Problem.discNetworkFlow = 0 ∧
      getPLFvalue [1, 2] [5, 6] 0 Problem.discNetworkFlow ≠ 5 := by
  constructor <;> norm_num [getPLFvalue]

/-- Claim C3 (amended): for `x ≤ x₀`, `getPLFvalue` returns `0` whenever the
problem is the discontinuous tag (regardless of the sign of `x₀`), and `y₀`
otherwise. -/
theorem getPLFvalue_left_of_domain (breakpoints_x breakpoints_y : List ℚ)
    (point : ℚ) (problem : Problem)
    (_hne : breakpoints_x ≠ [])
    (h : point ≤ breakpoints_x.headD 0) :
    getPLFvalue breakpoints_x breakpoints_y point problem
      = if problem = Problem.discNetworkFlow then 0
        else breakpoints_y.headD 0 := by
  simp only [getPLFvalue]
  rw [if_pos h]

theorem getPLFvalue_left_of_domain_witness :
    ((([(1 : ℚ), 2] : List ℚ) ≠ []) ∧ (0 : ℚ) ≤ ([(1 : ℚ), 2] : List ℚ).headD 0) ∧
      getPLFvalue [1, 2] [5, 6] 0 Problem.knapsack
        = if Problem.knapsack = Problem.discNetworkFlow then 0
          else ([(5 : ℚ), 6] : List ℚ).headD 0 := by
  refine ⟨⟨by simp, by norm_num⟩, ?_⟩
  exact getPLFvalue_left_of_domain [1, 2] [5, 6] 0 Problem.knapsack
    (by simp) (by norm_num)

/-! ### Claim C10: totality of `getPLFvalue` on interior points -/

/-- Claim C10: for a strictly-x-increasing breakpoint list of length `≥ 2`
and an evaluation point strictly between the first and last breakpoint, the
bisection position satisfies `1 ≤ pos ≤ K`, the interpolation divisor
`breakpoints_x[pos] − breakpoints_x[pos−1]` is strictly positive (so all
indexing is in bounds and no division by zero occurs), and evaluation
exactly at an interior breakpoint `x_k` returns exactly `y_k`. -/
theorem getPLFvalue_interior_safe (breakpoints_x breakpoints_y : List ℚ)
    (point : ℚ)
    (hsort : List.Pairwise (· < ·) breakpoints_x)
    (hlen : 2 ≤ breakpoints_x.length)
    (hleny : breakpoints_y.length = breakpoints_x.length)
    (hlo : breakpoints_x.headD 0 < point)
    (hhi : point < breakpoints_x.getLastD 0) :
    (1 ≤ bisect_right breakpoints_x point
      ∧ bisect_right breakpoints_x point ≤ breakpoints_x.length - 1
      ∧ 0 < breakpoints_x.getD (bisect_right breakpoints_x point) 0
            - breakpoints_x.getD (bisect_right breakpoints_x point - 1) 0)
    ∧ ∀ (problem : Problem) (k : ℕ), 0 < k → k + 1 < breakpoints_x.length →
        getPLFvalue breakpoints_x breakpoints_y (breakpoints_x.getD k 0) problem
          = breakpoints_y.getD k 0 := by
  have hne : breakpoints_x ≠ [] := by
    intro hcon; rw [hcon] at hlen; simp at hlen
  have hlt : bisect_right breakpoints_x point < breakpoints_x.length :=
    bisect_right_lt_length breakpoints_x point hne hhi
  have hpos1 : 1 ≤ bisect_right breakpoints_x point := by
    obtain ⟨x, t, hxt⟩ := List.exists_cons_of_ne_nil hne
    subst hxt
    exact bisect_right_pos x t point (le_of_lt (by simpa using hlo))
  refine ⟨⟨hpos1, by omega, ?_⟩, ?_⟩
  · have h1 : breakpoints_x.getD (bisect_right breakpoints_x point - 1) 0 ≤ point :=
      bisect_right_getD_le breakpoints_x point _ (by omega)
    have h2 : point < breakpoints_x.getD (bisect_right breakpoints_x point) 0 :=
      bisect_right_getD_gt breakpoints_x point hlt
    linarith
  · intro problem k hk hk1
    have hbk_gt : breakpoints_x.headD 0 < breakpoints_x.getD k 0 := by
      rw [headD_eq_getD]
      exact pairwise_lt_getD breakpoints_x hsort 0 k hk (by omega)
    have hbk_lt : breakpoints_x.getD k 0 < breakpoints_x.getLastD 0 := by
      rw [getLastD_eq_getD]
      exact pairwise_lt_getD breakpoints_x hsort k (breakpoints_x.length - 1)
        (by omega) (by omega)
    have hposk : bisect_right breakpoints_x (breakpoints_x.getD k 0) = k + 1 := by
      apply bisect_right_eq_of breakpoints_x _ (k + 1) (by omega)
      · intro j hj
        rcases Nat.lt_or_ge j k with hjk | hjk
        · exact le_of_lt (pairwise_lt_getD breakpoints_x hsort j k hjk (by omega))
        · have : j = k := by omega
          rw [this]
      · intro h
        exact pairwise_lt_getD breakpoints_x hsort k (k + 1) (by omega) h
    rw [getPLFvalue, if_neg (not_le.mpr hbk_gt), if_neg (not_le.mpr hbk_lt), hposk]
    simp [interpAt]

theorem getPLFvalue_interior_safe_witness :
    (List.Pairwise (· < ·) ([(0 : ℚ), 1, 2] : List ℚ)
      ∧ 2 ≤ ([(0 : ℚ), 1, 2] : List ℚ).length
      ∧ ([(0 : ℚ), 3, 1] : List ℚ).length = ([(0 : ℚ), 1, 2] : List ℚ).length
      ∧ ([(0 : ℚ), 1, 2] : List ℚ).headD 0 < (1/2 : ℚ)
      ∧ (1/2 : ℚ) < ([(0 : ℚ), 1, 2] : List ℚ).getLastD 0) ∧
    ((1 ≤ bisect_right [0, 1, 2] (1/2)
      ∧ bisect_right [0, 1, 2] (1/2) ≤ ([(0 : ℚ), 1, 2] : List ℚ).length - 1
      ∧ 0 < ([(0 : ℚ), 1, 2] : List ℚ).getD (bisect_right [0, 1, 2] (1/2)) 0
            - ([(0 : ℚ), 1, 2] : List ℚ).getD (bisect_right [0, 1, 2] (1/2) - 1) 0)
    ∧ ∀ (problem : Problem) (k : ℕ), 0 < k → k + 1 < ([(0 : ℚ), 1, 2] : List ℚ).length →
        getPLFvalue [0, 1, 2] [0, 3, 1] (([(0 : ℚ), 1, 2] : List ℚ).getD k 0) problem
          = ([(0 : ℚ), 3, 1] : List ℚ).getD k 0) := by
  refine ⟨⟨by norm_num, by norm_num, by norm_num, by norm_num, by norm_num⟩, ?_⟩
  exact getPLFvalue_interior_safe [0, 1, 2] [0, 3, 1] (1/2)
    (by norm_num) (by norm_num) (by norm_num) (by norm_num) (by norm_num)

/-! ### Claim C5: the largest-error branching rule of `branch_and_bound` -/

/-- Model of `np.argmax`: the first index attaining the maximum (numpy
documents and implements first-occurrence tie-breaking). -/
def argmax : List ℚ → ℕ
  | [] => 0
  | [_] => 0
  | v :: w :: t =>
    if v < (w :: t).getD (argmax (w :: t)) 0 then argmax (w :: t) + 1 else 0

/-- `approx_error = np.array(plf_values) - np.array(m.x[n:2*n])`
(`sBB_functions.py` line 179); `e_values` stands for the slice
`m.x[n:2*n]` of epigraph-variable values. -/
def approx_error (plf_values e_values : List ℚ) : List ℚ :=
  List.zipWith (fun a b => a - b) plf_values e_values

/-- `branch_index = np.argmax(approx_error)` (line 180). -/
def branch_index (plf_values e_values : List ℚ) : ℕ :=
  argmax (approx_error plf_values e_values)

/-- `branch_point = m.x[branch_index]` (line 181); `xs` is the x-part of the
parent's optimal solution. -/
def branch_point (xs : List ℚ) (i : ℕ) : ℚ := xs.getD i 0

/-- `pos = bisect.bisect(env_breakpoints_x[branch_index], branch_point)`
(line 184). -/
def branch_pos (env_x : List ℚ) (s : ℚ) : ℕ := bisect_right env_x s

theorem argmax_spec (l : List ℚ) (hne : l ≠ []) :
    argmax l < l.length
    ∧ (∀ j, j < l.length → l.getD j 0 ≤ l.getD (argmax l) 0)
    ∧ (∀ j, j < argmax l → l.getD j 0 < l.getD (argmax l) 0) := by
  induction l with
  | nil => simp at hne
  | cons v t ih =>
    cases t with
    | nil =>
      refine ⟨by simp [argmax], ?_, by simp [argmax]⟩
      intro j hj
      simp only [List.length_cons, List.length_nil] at hj
      have hj0 : j = 0 := by omega
      subst hj0
      simp [argmax]
    | cons w t2 =>
      obtain ⟨ih1, ih2, ih3⟩ := ih (by simp)
      by_cases hv : v < (w :: t2).getD (argmax (w :: t2)) 0
      · have ha : argmax (v :: w :: t2) = argmax (w :: t2) + 1 := by
          simp only [argmax, if_pos hv]
        rw [ha]
        refine ⟨by simpa using ih1, ?_, ?_⟩
        · intro j hj
          cases j with
          | zero =>
            simp only [List.getD_cons_zero, List.getD_cons_succ]
            exact le_of_lt hv
          | succ j =>
            simp only [List.getD_cons_succ]
            exact ih2 j (by simpa using hj)
        · intro j hj
          cases j with
          | zero =>
            simp only [List.getD_cons_zero, List.getD_cons_succ]
            exact hv
          | succ j =>
            simp only [List.getD_cons_succ]
            exact ih3 j (by omega)
      · have ha : argmax (v :: w :: t2) = 0 := by
          simp only [argmax, if_neg hv]
        rw [ha]
        refine ⟨by simp, ?_, ?_⟩
        · intro j hj
          cases j with
          | zero => simp
          | succ j =>
            simp only [List.getD_cons_succ, List.getD_cons_zero]
            exact le_trans (ih2 j (by simpa using hj)) (le_of_not_lt hv)
        · intro j hj
          omega

/-- Claim C5: the branching rule picks as `branch_index` the smallest index
attaining the maximum approximation error `Δᵢ = plf_valuesᵢ − eᵢ*`, sets the
split point to the parent optimum's value at that index, and `pos` is the
index of the first breakpoint of the parent envelope strictly greater than
the split point (every earlier breakpoint is `≤` it). -/
theorem branch_and_bound_selection (plf_values e_values xs env : List ℚ)
    (_hsorted : List.Pairwise (· ≤ ·) env)
    (hne : approx_error plf_values e_values ≠ []) :
    branch_index plf_values e_values < (approx_error plf_values e_values).length
    ∧ (∀ j, j < (approx_error plf_values e_values).length →
        (approx_error plf_values e_values).getD j 0
          ≤ (approx_error plf_values e_values).getD (branch_index plf_values e_values) 0)
    ∧ (∀ j, j < branch_index plf_values e_values →
        (approx_error plf_values e_values).getD j 0
          < (approx_error plf_values e_values).getD (branch_index plf_values e_values) 0)
    ∧ branch_point xs (branch_index plf_values e_values)
        = xs.getD (branch_index plf_values e_values) 0
    ∧ (∀ j, j < branch_pos env (branch_point xs (branch_index plf_values e_values)) →
        env.getD j 0 ≤ branch_point xs (branch_index plf_values e_values))
    ∧ (branch_pos env (branch_point xs (branch_index plf_values e_values)) < env.length →
        branch_point xs (branch_index plf_values e_values)
          < env.getD (branch_pos env (branch_point xs (branch_index plf_values e_values))) 0)
    ∧ branch_pos env (branch_point xs (branch_index plf_values e_values)) ≤ env.length := by
  obtain ⟨h1, h2, h3⟩ := argmax_spec (approx_error plf_values e_values) hne
  exact ⟨h1, h2, h3, rfl,
    fun j hj => bisect_right_getD_le env _ j hj,
    fun h => bisect_right_getD_gt env _ h,
    bisect_right_le_length env _⟩

theorem branch_and_bound_selection_witness :
    (List.Pairwise (· ≤ ·) ([(0 : ℚ), 1, 2] : List ℚ)
      ∧ approx_error [4, 7] [1, 2] ≠ []) ∧
    (branch_index [4, 7] [1, 2] < (approx_error [4, 7] [1, 2]).length
    ∧ (∀ j, j < (approx_error [4, 7] [1, 2]).length →
        (approx_error [4, 7] [1, 2]).getD j 0
          ≤ (approx_error [4, 7] [1, 2]).getD (branch_index [4, 7] [1, 2]) 0)
    ∧ (∀ j, j < branch_index [4, 7] [1, 2] →
        (approx_error [4, 7] [1, 2]).getD j 0
          < (approx_error [4, 7] [1, 2]).getD (branch_index [4, 7] [1, 2]) 0)
    ∧ branch_point [1, 3/2] (branch_index [4, 7] [1, 2])
        = ([(1 : ℚ), 3/2] : List ℚ).getD (branch_index [4, 7] [1, 2]) 0
    ∧ (∀ j, j < branch_pos [0, 1, 2] (branch_point [1, 3/2] (branch_index [4, 7] [1, 2])) →
        ([(0 : ℚ), 1, 2] : List ℚ).getD j 0
          ≤ branch_point [1, 3/2] (branch_index [4, 7] [1, 2]))
    ∧ (branch_pos [0, 1, 2] (branch_point [1, 3/2] (branch_index [4, 7] [1, 2]))
          < ([(0 : ℚ), 1, 2] : List ℚ).length →
        branch_point [1, 3/2] (branch_index [4, 7] [1, 2])
          < ([(0 : ℚ), 1, 2] : List ℚ).getD
              (branch_pos [0, 1, 2] (branch_point [1, 3/2] (branch_index [4, 7] [1, 2]))) 0)
    ∧ branch_pos [0, 1, 2] (branch_point [1, 3/2] (branch_index [4, 7] [1, 2]))
        ≤ ([(0 : ℚ), 1, 2] : List ℚ).length) := by
  refine ⟨⟨by norm_num, by simp [approx_error]⟩, ?_⟩
  exact branch_and_bound_selection [4, 7] [1, 2] [1, 3/2] [0, 1, 2]
    (by norm_num) (by simp [approx_error])

/-! ### `getEnvelope`: the lower convex envelope builder

The source keeps parallel `lower_x` / `lower_y` lists; here a polyline is a
single list of `(x, y)` pairs and the parallel lists are recovered by
projection at the `getEnvelope` boundary. -/

/-- The slope `(q.y - p.y) / (q.x - p.x)` between two points, as the code
writes it. -/
def slope (p q : ℚ × ℚ) : ℚ := (q.2 - p.2) / (q.1 - p.1)

/-- The inner `while` loop of `getEnvelope` (lines 125-129) together with the
subsequent `append` (lines 131-132): pop while the slope from the last kept
point to the candidate is smaller than the slope of the last kept segment,
then push the candidate.  The stack holds the kept points in reverse order
(top of stack first), matching the code's `lower_x[-1]` / `lower_x[-2]`
accesses. -/
def hullStep (stack : List (ℚ × ℚ)) (p : ℚ × ℚ) : List (ℚ × ℚ) :=
  match stack with
  | b :: a :: rest =>
    if (p.2 - b.2) / (p.1 - b.1) < (b.2 - a.2) / (b.1 - a.1) then
      hullStep (a :: rest) p
    else
      p :: b :: a :: rest
  | _ => p :: stack

/-- The `for` loop of step 2 of `getEnvelope` (lines 120-132), producing the
kept points in input order. -/
def lowerHull (pts : List (ℚ × ℚ)) : List (ℚ × ℚ) :=
  (pts.foldl hullStep []).reverse

/-- Step 1 of `getEnvelope` (lines 83-111): restrict the PLF to the
sub-interval `[lo, hi]` — keep the original breakpoints strictly inside,
and add interpolated points at the two edges (unless the interval is the
full domain, in which case the breakpoints are taken as they are). -/
def restrictPoints (breakpoints_x breakpoints_y : List ℚ) (lo hi : ℚ) :
    List (ℚ × ℚ) :=
  if lo = breakpoints_x.headD 0 ∧ hi = breakpoints_x.getLastD 0 then
    breakpoints_x.zip breakpoints_y
  else
    ((lo, interpAt breakpoints_x breakpoints_y (bisect_right breakpoints_x lo) lo)
        :: (((breakpoints_x.zip breakpoints_y).drop (bisect_right breakpoints_x lo)).take
              (bisect_left breakpoints_x hi - bisect_right breakpoints_x lo)))
      ++ [(hi, interpAt breakpoints_x breakpoints_y (bisect_left breakpoints_x hi) hi)]

/-- Step 1a of `getEnvelope` (lines 113-116): under the discontinuous tag
with `interval[0] ≤ 0`, replace the y-value of the leftmost point by `0`. -/
def adjustJump (problem : Problem) (lo : ℚ) (pts : List (ℚ × ℚ)) :
    List (ℚ × ℚ) :=
  match pts with
  | [] => []
  | p :: t =>
    if problem = Problem.discNetworkFlow ∧ lo ≤ 0 then (p.1, 0) :: t
    else p :: t

/-- The points fed into the monotone-chain loop of `getEnvelope`. -/
def envelopePoints (breakpoints_x breakpoints_y : List ℚ) (lo hi : ℚ)
    (problem : Problem) : List (ℚ × ℚ) :=
  adjustJump problem lo (restrictPoints breakpoints_x breakpoints_y lo hi)

/-- `getEnvelope` from `sBB_functions.py` (lines 50-134); the runtime return
value is dropped. -/
def getEnvelope (breakpoints_x breakpoints_y : List ℚ) (lo hi : ℚ)
    (problem : Problem) : List ℚ × List ℚ :=
  ((lowerHull (envelopePoints breakpoints_x breakpoints_y lo hi problem)).map Prod.fst,
   (lowerHull (envelopePoints breakpoints_x breakpoints_y lo hi problem)).map Prod.snd)

/-! #### Structural facts about the monotone-chain loop -/

theorem hullStep_shape (stack : List (ℚ × ℚ)) (p : ℚ × ℚ) :
    ∃ s, hullStep stack p = p :: s ∧ s.IsSuffix stack := by
  induction stack with
  | nil => exact ⟨[], rfl, List.nil_suffix⟩
  | cons b t ih =>
    cases t with
    | nil => exact ⟨[b], rfl, List.suffix_refl _⟩
    | cons a rest =>
      simp only [hullStep]
      split
      · obtain ⟨s, hs, hsuf⟩ := ih
        exact ⟨s, hs, hsuf.trans (List.suffix_cons b (a :: rest))⟩
      · exact ⟨b :: a :: rest, rfl, List.suffix_refl _⟩

theorem hullStep_ne_nil (stack : List (ℚ × ℚ)) (p : ℚ × ℚ) :
    hullStep stack p ≠ [] := by
  obtain ⟨s, hs, -⟩ := hullStep_shape stack p
  simp [hs]

theorem hullStep_head (stack : List (ℚ × ℚ)) (p : ℚ × ℚ) :
    (hullStep stack p).head? = some p := by
  obtain ⟨s, hs, -⟩ := hullStep_shape stack p
  simp [hs]

theorem hullStep_getLast (stack : List (ℚ × ℚ)) (p : ℚ × ℚ)
    (hne : stack ≠ []) :
    (hullStep stack p).getLast? = stack.getLast? := by
  induction stack with
  | nil => exact absurd rfl hne
  | cons b t ih =>
    cases t with
    | nil => rfl
    | cons a rest =>
      simp only [hullStep]
      split
      · rw [ih (by simp)]
        exact (List.getLast?_cons_cons).symm
      · exact List.getLast?_cons_cons

theorem foldl_hullStep_getLast (l : List (ℚ × ℚ)) (s : List (ℚ × ℚ))
    (hne : s ≠ []) :
    (l.foldl hullStep s).getLast? = s.getLast? := by
  induction l generalizing s with
  | nil => rfl
  | cons p t ih =>
    rw [List.foldl_cons, ih (hullStep s p) (hullStep_ne_nil s p),
      hullStep_getLast s p hne]

theorem foldl_hullStep_ne_nil (l : List (ℚ × ℚ)) (s : List (ℚ × ℚ))
    (hne : s ≠ []) : l.foldl hullStep s ≠ [] := by
  induction l generalizing s with
  | nil => exact hne
  | cons p t ih => exact ih (hullStep s p) (hullStep_ne_nil s p)

/-- The reversed stack after folding is a sublist of the initial reversed
stack followed by the processed points. -/
theorem foldl_hullStep_sublist (l : List (ℚ × ℚ)) (s : List (ℚ × ℚ)) :
    (l.foldl hullStep s).reverse.Sublist (s.reverse ++ l) := by
  induction l generalizing s with
  | nil => simp
  | cons p t ih =>
    rw [List.foldl_cons]
    refine (ih (hullStep s p)).trans ?_
    obtain ⟨s1, hs1, hsuf⟩ := hullStep_shape s p
    rw [hs1]
    have h1 : (p :: s1).reverse = s1.reverse ++ [p] := by simp
    rw [h1, List.append_assoc]
    refine List.Sublist.append ?_ (List.Sublist.refl _)
    exact (hsuf.sublist).reverse

theorem lowerHull_sublist (pts : List (ℚ × ℚ)) :
    (lowerHull pts).Sublist pts := by
  have := foldl_hullStep_sublist pts []
  simpa [lowerHull] using this

theorem lowerHull_head (p : ℚ × ℚ) (t : List (ℚ × ℚ)) :
    (lowerHull (p :: t)).head? = some p := by
  have h1 : (p :: t).foldl hullStep [] = t.foldl hullStep [p] := by
    rw [List.foldl_cons]; rfl
  have h2 : (t.foldl hullStep [p]).getLast? = some p :=
    foldl_hullStep_getLast t [p] (by simp)
  rw [lowerHull, h1, List.head?_reverse, h2]

theorem lowerHull_getLast (pts : List (ℚ × ℚ)) (hne : pts ≠ []) :
    (lowerHull pts).getLast? = pts.getLast? := by
  rcases (List.eq_nil_or_concat pts) with h | ⟨l, z, hlz⟩
  · exact absurd h hne
  · subst hlz
    rw [lowerHull, List.concat_eq_append, List.foldl_append]
    obtain ⟨s, hs, -⟩ := hullStep_shape (l.foldl hullStep []) z
    simp only [List.foldl_cons, List.foldl_nil, hs]
    rw [show (z :: s).reverse = s.reverse ++ [z] by simp]
    rw [List.getLast?_concat, List.getLast?_concat]

theorem lowerHull_getLast_concat (l : List (ℚ × ℚ)) (z : ℚ × ℚ) :
    (lowerHull (l ++ [z])).getLast? = some z := by
  rw [lowerHull_getLast (l ++ [z]) (by simp), List.getLast?_concat]

/-- Slope monotonicity down a stack (top of stack first): every kept
segment's slope is at least the slope of the segment below it. -/
def StackMono : List (ℚ × ℚ) → Prop
  | b :: a :: z :: t => slope z a ≤ slope a b ∧ StackMono (a :: z :: t)
  | _ => True

theorem stackMono_tail (x : ℚ × ℚ) (t : List (ℚ × ℚ))
    (h : StackMono (x :: t)) : StackMono t := by
  cases t with
  | nil => trivial
  | cons a t2 =>
    cases t2 with
    | nil => trivial
    | cons z t3 => exact h.2

theorem hullStep_stackMono (stack : List (ℚ × ℚ)) (p : ℚ × ℚ)
    (h : StackMono stack) : StackMono (hullStep stack p) := by
  induction stack with
  | nil => trivial
  | cons b t ih =>
    cases t with
    | nil => trivial
    | cons a rest =>
      simp only [hullStep]
      by_cases hc : (p.2 - b.2) / (p.1 - b.1) < (b.2 - a.2) / (b.1 - a.1)
      · rw [if_pos hc]
        exact ih (stackMono_tail b (a :: rest) h)
      · rw [if_neg hc]
        exact ⟨le_of_not_lt hc, h⟩

theorem foldl_hullStep_stackMono (l : List (ℚ × ℚ)) (s : List (ℚ × ℚ))
    (h : StackMono s) : StackMono (l.foldl hullStep s) := by
  induction l generalizing s with
  | nil => exact h
  | cons p t ih => exact ih (hullStep s p) (hullStep_stackMono s p h)

/-- Positional reading of `StackMono` (indices increase towards the bottom
of the stack). -/
theorem stackMono_getD (r : List (ℚ × ℚ)) (h : StackMono r) :
    ∀ j, j + 2 < r.length →
      slope (r.getD (j + 2) (0, 0)) (r.getD (j + 1) (0, 0))
        ≤ slope (r.getD (j + 1) (0, 0)) (r.getD j (0, 0)) := by
  induction r with
  | nil => intro j hj; simp at hj
  | cons b t ih =>
    cases t with
    | nil => intro j hj; simp at hj
    | cons a t2 =>
      cases t2 with
      | nil =>
        intro j hj
        simp only [List.length_cons, List.length_nil] at hj
        omega
      | cons z t3 =>
        intro j hj
        cases j with
        | zero => simpa using h.1
        | succ j =>
          simp only [List.getD_cons_succ]
          exact ih h.2 j (by simpa using Nat.lt_of_succ_lt_succ hj)

/-- Positional reading of the forward chain (the reversed stack). -/
theorem reverse_stackMono_getD (r : List (ℚ × ℚ)) (h : StackMono r) :
    ∀ k, k + 2 < r.reverse.length →
      slope (r.reverse.getD k (0, 0)) (r.reverse.getD (k + 1) (0, 0))
        ≤ slope (r.reverse.getD (k + 1) (0, 0)) (r.reverse.getD (k + 2) (0, 0)) := by
  intro k hk
  have hlen : r.reverse.length = r.length := List.length_reverse r
  rw [hlen] at hk
  have hget : ∀ m, m < r.length → r.reverse.getD m (0, 0) = r.getD (r.length - 1 - m) (0, 0) := by
    intro m hm
    rw [List.getD_eq_getElem?_getD, List.getD_eq_getElem?_getD,
      List.getElem?_eq_getElem (by simpa using hm),
      List.getElem?_eq_getElem (by omega)]
    simp [List.getElem_reverse]
  rw [hget k (by omega), hget (k + 1) (by omega), hget (k + 2) (by omega)]
  have h1 : r.length - 1 - k = (r.length - 1 - (k + 2)) + 2 := by omega
  have h2 : r.length - 1 - (k + 1) = (r.length - 1 - (k + 2)) + 1 := by omega
  rw [h1, h2]
  exact stackMono_getD r h (r.length - 1 - (k + 2)) (by omega)

/-! #### The interpolated interval edges agree with plain PLF evaluation

"Plain" evaluation means `getPLFvalue` under a non-jump tag (the spec's
step 1 of the envelope builder computes `f(a)`, `f(b)` without the jump);
`Problem.knapsack` is used as the representative non-jump tag. -/

theorem bisect_left_pos (x : ℚ) (t : List ℚ) (p : ℚ) (h : x < p) :
    1 ≤ bisect_left (x :: t) p := by
  simp [bisect_left, not_le.mpr h]

theorem bisect_left_lt_length (xs : List ℚ) (p : ℚ) (hne : xs ≠ [])
    (h : p ≤ xs.getLastD 0) : bisect_left xs p < xs.length := by
  rcases Nat.lt_or_ge (bisect_left xs p) xs.length with hlt | hge
  · exact hlt
  · exfalso
    have hpos : 0 < xs.length := List.length_pos.mpr hne
    have hlt2 : xs.getD (xs.length - 1) 0 < p :=
      bisect_left_getD_lt xs p (xs.length - 1) (by omega)
    rw [getLastD_eq_getD] at h
    exact absurd h (not_le.mpr hlt2)

theorem pairwise_lt_getD_le (xs : List ℚ) (hs : List.Pairwise (· < ·) xs)
    (i j : ℕ) (hij : i ≤ j) (hj : j < xs.length) :
    xs.getD i 0 ≤ xs.getD j 0 := by
  rcases Nat.lt_or_ge i j with hlt | hge
  · exact le_of_lt (pairwise_lt_getD xs hs i j hlt hj)
  · have : i = j := le_antisymm hij hge
    rw [this]

/-- Left interval edge: the `interval_y[0]` expression of `getEnvelope`
equals the plain PLF value at the edge. -/
theorem interp_left_eq_plain (bx bb : List ℚ) (v : ℚ)
    (hsort : List.Pairwise (· < ·) bx) (hlen : 2 ≤ bx.length)
    (h1 : bx.headD 0 ≤ v) (h2 : v < bx.getLastD 0) :
    interpAt bx bb (bisect_right bx v) v
      = getPLFvalue bx bb v Problem.knapsack := by
  by_cases hv : v ≤ bx.headD 0
  · have hveq : v = bx.headD 0 := le_antisymm hv h1
    have hpos : bisect_right bx v = 1 := by
      apply bisect_right_eq_of bx v 1 (by omega)
      · intro j hj
        have hj0 : j = 0 := by omega
        subst hj0
        rw [← headD_eq_getD]
        exact h1
      · intro hlt
        rw [hveq, headD_eq_getD]
        exact pairwise_lt_getD bx hsort 0 1 one_pos hlt
    rw [hpos, getPLFvalue, if_pos hv,
      if_neg (by simp : ¬ (Problem.knapsack = Problem.discNetworkFlow)), interpAt]
    have hidx : (1 : ℕ) - 1 = 0 := rfl
    rw [hidx, hveq, headD_eq_getD bx, sub_self, mul_zero, zero_add, headD_eq_getD bb]
  · rw [getPLFvalue, if_neg hv, if_neg (not_le.mpr h2)]

/-- Right interval edge: the `interval_y[1]` expression of `getEnvelope`
equals the plain PLF value at the edge. -/
theorem interp_right_eq_plain (bx bb : List ℚ) (v : ℚ)
    (hsort : List.Pairwise (· < ·) bx) (hlen : 2 ≤ bx.length)
    (hleny : bb.length = bx.length)
    (h1 : bx.headD 0 < v) (h2 : v ≤ bx.getLastD 0) :
    interpAt bx bb (bisect_left bx v) v
      = getPLFvalue bx bb v Problem.knapsack := by
  have hne : bx ≠ [] := by intro hcon; rw [hcon] at hlen; simp at hlen
  have hj1 : 1 ≤ bisect_left bx v := by
    obtain ⟨x, t, hxt⟩ := List.exists_cons_of_ne_nil hne
    subst hxt
    exact bisect_left_pos x t v (by simpa using h1)
  have hjlt : bisect_left bx v < bx.length := bisect_left_lt_length bx v hne h2
  set j := bisect_left bx v with hjdef
  have hden : bx.getD (j - 1) 0 < bx.getD j 0 :=
    pairwise_lt_getD bx hsort (j - 1) j (by omega) hjlt
  by_cases hbk : bx.getD j 0 = v
  · have hinterp : interpAt bx bb j v = bb.getD j 0 := by
      rw [interpAt, ← hbk]
      rw [div_mul_cancel₀ _ (by linarith : bx.getD j 0 - bx.getD (j - 1) 0 ≠ 0)]
      ring
    rw [hinterp, getPLFvalue, if_neg (not_le.mpr h1)]
    by_cases hlast : bx.getLastD 0 ≤ v
    · rw [if_pos hlast]
      have hveq : v = bx.getLastD 0 := le_antisymm h2 hlast
      have hjeq : j = bx.length - 1 := by
        by_contra hne2
        have hjlt2 : j < bx.length - 1 := by omega
        have hcon := pairwise_lt_getD bx hsort j (bx.length - 1) hjlt2 (by omega)
        rw [← getLastD_eq_getD, ← hveq, hbk] at hcon
        exact lt_irrefl v hcon
      rw [hjeq, getLastD_eq_getD bb, hleny]
    · rw [if_neg hlast]
      have hbr : bisect_right bx v = j + 1 := by
        apply bisect_right_eq_of bx v (j + 1) (by omega)
        · intro i hi
          rcases Nat.lt_or_ge i j with hij | hij
          · exact le_of_lt (bisect_left_getD_lt bx v i hij)
          · have : i = j := by omega
            rw [this, hbk]
        · intro hlt2
          calc v = bx.getD j 0 := hbk.symm
            _ < bx.getD (j + 1) 0 := pairwise_lt_getD bx hsort j (j + 1) (by omega) hlt2
      rw [hbr, interpAt]
      have hidx : j + 1 - 1 = j := by omega
      rw [hidx, ← hbk, sub_self, mul_zero, zero_add]
  · have hgt : v < bx.getD j 0 :=
      lt_of_le_of_ne (bisect_left_getD_ge bx v hjlt) (fun hc => hbk hc.symm)
    have hbr : bisect_right bx v = j := by
      apply bisect_right_eq_of bx v j (by omega)
      · intro i hi
        exact le_of_lt (bisect_left_getD_lt bx v i hi)
      · intro _
        exact hgt
    have hlast : ¬ (bx.getLastD 0 ≤ v) := by
      rw [getLastD_eq_getD]
      have hle := pairwise_lt_getD_le bx hsort j (bx.length - 1) (by omega) (by omega)
      exact not_le.mpr (lt_of_lt_of_le hgt hle)
    rw [getPLFvalue, if_neg (not_le.mpr h1), if_neg hlast, hbr]

/-! #### Endpoints of the restricted point list -/

theorem getLastD_cons_cons_q (a b : ℚ) (l : List ℚ) :
    (a :: b :: l).getLastD 0 = (b :: l).getLastD 0 := by
  rw [List.getLastD_eq_getLast?, List.getLastD_eq_getLast?, List.getLast?_cons_cons]

theorem zip_getLast (bx bb : List ℚ) (hleny : bb.length = bx.length)
    (hne : bx ≠ []) :
    (bx.zip bb).getLast? = some (bx.getLastD 0, bb.getLastD 0) := by
  induction bx generalizing bb with
  | nil => exact absurd rfl hne
  | cons x t ih =>
    have hbb : bb ≠ [] := by
      intro hcon
      rw [hcon] at hleny
      simp at hleny
    obtain ⟨y, s, hys⟩ := List.exists_cons_of_ne_nil hbb
    subst hys
    cases t with
    | nil =>
      have hs : s = [] := by
        simp only [List.length_cons, List.length_nil] at hleny
        exact List.eq_nil_of_length_eq_zero (by omega)
      subst hs
      rfl
    | cons x2 t2 =>
      have hsne : s ≠ [] := by
        intro hcon
        rw [hcon] at hleny
        simp at hleny
      obtain ⟨y2, s2, hys2⟩ := List.exists_cons_of_ne_nil hsne
      subst hys2
      have hlen2 : (y2 :: s2).length = (x2 :: t2).length := by
        simpa using hleny
      have hz : (x2 :: t2).zip (y2 :: s2) = (x2, y2) :: t2.zip s2 := rfl
      rw [List.zip_cons_cons, hz, List.getLast?_cons_cons, ← hz,
        ih (y2 :: s2) hlen2 (by simp),
        getLastD_cons_cons_q x x2 t2, getLastD_cons_cons_q y y2 s2]



theorem restrictPoints_two_le (bx bb : List ℚ) (lo hi : ℚ)
    (hlen : 2 ≤ bx.length) (hleny : bb.length = bx.length) :
    2 ≤ (restrictPoints bx bb lo hi).length := by
  rw [restrictPoints]
  split
  · rw [List.length_zip, hleny, min_self]
    exact hlen
  · simp

theorem restrictPoints_ne_nil (bx bb : List ℚ) (lo hi : ℚ)
    (hlen : 2 ≤ bx.length) (hleny : bb.length = bx.length) :
    restrictPoints bx bb lo hi ≠ [] := by
  have := restrictPoints_two_le bx bb lo hi hlen hleny
  intro hcon
  rw [hcon] at this
  simp at this

theorem restrictPoints_head (bx bb : List ℚ) (lo hi : ℚ)
    (hsort : List.Pairwise (· < ·) bx)
    (hlen : 2 ≤ bx.length) (hleny : bb.length = bx.length)
    (hlo : bx.headD 0 ≤ lo) (hlohi : lo < hi) (hhi : hi ≤ bx.getLastD 0) :
    (restrictPoints bx bb lo hi).head?
      = some (lo, getPLFvalue bx bb lo Problem.knapsack) := by
  have hne : bx ≠ [] := by intro hcon; rw [hcon] at hlen; simp at hlen
  have hney : bb ≠ [] := by
    intro hcon
    rw [hcon] at hleny
    simp only [List.length_nil] at hleny
    omega
  rw [restrictPoints]
  by_cases hfull : lo = bx.headD 0 ∧ hi = bx.getLastD 0
  · rw [if_pos hfull]
    obtain ⟨x, t, hxt⟩ := List.exists_cons_of_ne_nil hne
    obtain ⟨y, s, hys⟩ := List.exists_cons_of_ne_nil hney
    subst hxt hys
    simp only [List.zip_cons_cons, List.head?_cons, Option.some.injEq]
    have hlo0 : lo = x := by simpa using hfull.1
    have hplf : getPLFvalue (x :: t) (y :: s) lo Problem.knapsack = y := by
      rw [getPLFvalue, if_pos (by rw [hlo0]; exact le_refl _),
        if_neg (by simp : ¬ (Problem.knapsack = Problem.discNetworkFlow))]
      rfl
    rw [hlo0] at hplf ⊢
    rw [hplf]
  · rw [if_neg hfull]
    simp only [List.cons_append, List.head?_cons, Option.some.injEq]
    rw [interp_left_eq_plain bx bb lo hsort hlen hlo (lt_of_lt_of_le hlohi hhi)]

theorem restrictPoints_getLast (bx bb : List ℚ) (lo hi : ℚ)
    (hsort : List.Pairwise (· < ·) bx)
    (hlen : 2 ≤ bx.length) (hleny : bb.length = bx.length)
    (hlo : bx.headD 0 ≤ lo) (hlohi : lo < hi) (hhi : hi ≤ bx.getLastD 0) :
    (restrictPoints bx bb lo hi).getLast?
      = some (hi, getPLFvalue bx bb hi Problem.knapsack) := by
  have hne : bx ≠ [] := by intro hcon; rw [hcon] at hlen; simp at hlen
  rw [restrictPoints]
  by_cases hfull : lo = bx.headD 0 ∧ hi = bx.getLastD 0
  · rw [if_pos hfull]
    rw [zip_getLast bx bb hleny hne]
    have hplf : getPLFvalue bx bb hi Problem.knapsack = bb.getLastD 0 := by
      rw [getPLFvalue]
      have hh : ¬ (hi ≤ bx.headD 0) := by
        have h01 : bx.headD 0 < bx.getLastD 0 := by
          rw [headD_eq_getD, getLastD_eq_getD]
          exact pairwise_lt_getD bx hsort 0 (bx.length - 1) (by omega) (by omega)
        rw [hfull.2]
        exact not_le.mpr h01
      rw [if_neg hh, if_pos (le_of_eq hfull.2.symm)]
    rw [hplf, hfull.2]
  · rw [if_neg hfull]
    rw [List.getLast?_concat]
    simp only [Option.some.injEq]
    rw [interp_right_eq_plain bx bb hi hsort hlen hleny
      (lt_of_le_of_lt hlo hlohi) hhi]

/-- Step 1a leaves the tail of the point list untouched, so the last point
survives whenever there are at least two. -/
theorem adjustJump_getLast (problem : Problem) (lo : ℚ) (pts : List (ℚ × ℚ))
    (hlen : 2 ≤ pts.length) :
    (adjustJump problem lo pts).getLast? = pts.getLast? := by
  match pts, hlen with
  | p :: q :: t, _ =>
    simp only [adjustJump]
    split
    · exact List.getLast?_cons_cons
    · rfl

theorem adjustJump_head (problem : Problem) (lo : ℚ) (pts : List (ℚ × ℚ))
    (p : ℚ × ℚ) (h : pts.head? = some p) :
    (adjustJump problem lo pts).head?
      = some (if problem = Problem.discNetworkFlow ∧ lo ≤ 0 then (p.1, 0) else p) := by
  cases pts with
  | nil => simp at h
  | cons q t =>
    simp only [List.head?_cons, Option.some.injEq] at h
    subst h
    simp only [adjustJump]
    by_cases hcond : problem = Problem.discNetworkFlow ∧ lo ≤ 0
    · rw [if_pos hcond, if_pos hcond]
      rfl
    · rw [if_neg hcond, if_neg hcond]
      rfl

theorem adjustJump_length (problem : Problem) (lo : ℚ) (pts : List (ℚ × ℚ)) :
    (adjustJump problem lo pts).length = pts.length := by
  cases pts with
  | nil => rfl
  | cons q t =>
    simp only [adjustJump]
    split <;> rfl

/-! #### Projection helpers (parallel lists from the pair representation) -/

theorem getDP_eq_getElem (l : List (ℚ × ℚ)) (i : ℕ) (h : i < l.length) :
    l.getD i (0, 0) = l[i] := by
  rw [List.getD_eq_getElem?_getD, List.getElem?_eq_getElem h]
  rfl

theorem headD_map_fst (l : List (ℚ × ℚ)) (p : ℚ × ℚ) (h : l.head? = some p) :
    (l.map Prod.fst).headD 0 = p.1 := by
  cases l with
  | nil => simp at h
  | cons q t =>
    simp only [List.head?_cons, Option.some.injEq] at h
    subst h
    rfl

theorem headD_map_snd (l : List (ℚ × ℚ)) (p : ℚ × ℚ) (h : l.head? = some p) :
    (l.map Prod.snd).headD 0 = p.2 := by
  cases l with
  | nil => simp at h
  | cons q t =>
    simp only [List.head?_cons, Option.some.injEq] at h
    subst h
    rfl

theorem getLastD_map_fst (l : List (ℚ × ℚ)) (p : ℚ × ℚ)
    (h : l.getLast? = some p) : (l.map Prod.fst).getLastD 0 = p.1 := by
  rw [List.getLastD_eq_getLast?, List.getLast?_map, h]
  rfl

theorem getLastD_map_snd (l : List (ℚ × ℚ)) (p : ℚ × ℚ)
    (h : l.getLast? = some p) : (l.map Prod.snd).getLastD 0 = p.2 := by
  rw [List.getLastD_eq_getLast?, List.getLast?_map, h]
  rfl

theorem getD_map_fst (l : List (ℚ × ℚ)) (k : ℕ) (h : k < l.length) :
    (l.map Prod.fst).getD k 0 = (l.getD k (0, 0)).1 := by
  rw [getDP_eq_getElem l k h, getD_eq_getElem _ k (by simpa using h)]
  simp

theorem getD_map_snd (l : List (ℚ × ℚ)) (k : ℕ) (h : k < l.length) :
    (l.map Prod.snd).getD k 0 = (l.getD k (0, 0)).2 := by
  rw [getDP_eq_getElem l k h, getD_eq_getElem _ k (by simpa using h)]
  simp

/-! ### Claim C2: endpoints and slope monotonicity of the envelope -/

/-- Claim C2 counterexample: on the collinear PLF with breakpoints
`(0,0),(1,1),(2,2)` over its full domain, `getEnvelope` keeps all three
points (the pop condition is strict), so consecutive slopes are `1, 1` —
not strictly increasing as the claim states. -/
theorem getEnvelope_slopes_not_strictly_increasing :
    (getEnvelope [0, 1, 2] [0, 1, 2] 0 2 Problem.knapsack
        = ([0, 1, 2], [0, 1, 2]))
    ∧ ¬ (∀ k, k + 2 < (getEnvelope [0, 1, 2] [0, 1, 2] 0 2 Problem.knapsack).1.length →
        ((getEnvelope [0, 1, 2] [0, 1, 2] 0 2 Problem.knapsack).2.getD (k + 1) 0
            - (getEnvelope [0, 1, 2] [0, 1, 2] 0 2 Problem.knapsack).2.getD k 0)
          / ((getEnvelope [0, 1, 2] [0, 1, 2] 0 2 Problem.knapsack).1.getD (k + 1) 0
            - (getEnvelope [0, 1, 2] [0, 1, 2] 0 2 Problem.knapsack).1.getD k 0)
        < ((getEnvelope [0, 1, 2] [0, 1, 2] 0 2 Problem.knapsack).2.getD (k + 2) 0
            - (getEnvelope [0, 1, 2] [0, 1, 2] 0 2 Problem.knapsack).2.getD (k + 1) 0)
          / ((getEnvelope [0, 1, 2] [0, 1, 2] 0 2 Problem.knapsack).1.getD (k + 2) 0
            - (getEnvelope [0, 1, 2] [0, 1, 2] 0 2 Problem.knapsack).1.getD (k + 1) 0)) := by
  have heval : getEnvelope [0, 1, 2] [0, 1, 2] 0 2 Problem.knapsack
      = ([0, 1, 2], [0, 1, 2]) := by
    norm_num [getEnvelope, envelopePoints, adjustJump, restrictPoints, lowerHull,
      hullStep, List.foldl]
  refine ⟨heval, fun hcon => ?_⟩
  have := hcon 0 (by rw [heval]; norm_num)
  rw [heval] at this
  norm_num at this

/-- Claim C2 (amended): for every PL function given by strictly-x-increasing
breakpoints and every sub-interval `[a, b]` of its domain, the breakpoint
sequence returned by `getEnvelope` has non-decreasing consecutive slopes
(the pop condition of the hull loop is strict, so collinear points are kept
and equal consecutive slopes occur; "strictly increasing" fails), its first
breakpoint is `(a, f(a))` — with y-value `0` instead when the problem is the
discontinuous tag and `a ≤ 0` — and its last breakpoint is `(b, f(b))`,
where `f` is evaluated without the jump (the spec's step 1 computes the
interval edges "by C1 (without the jump)"). -/
theorem getEnvelope_endpoints_and_slopes (bx bb : List ℚ) (lo hi : ℚ)
    (problem : Problem)
    (hsort : List.Pairwise (· < ·) bx)
    (hlen : 2 ≤ bx.length)
    (hleny : bb.length = bx.length)
    (hlo : bx.headD 0 ≤ lo) (hlohi : lo < hi) (hhi : hi ≤ bx.getLastD 0) :
    ((getEnvelope bx bb lo hi problem).1.headD 0 = lo
      ∧ (getEnvelope bx bb lo hi problem).2.headD 0
          = (if problem = Problem.discNetworkFlow ∧ lo ≤ 0 then 0
             else getPLFvalue bx bb lo Problem.knapsack))
    ∧ ((getEnvelope bx bb lo hi problem).1.getLastD 0 = hi
      ∧ (getEnvelope bx bb lo hi problem).2.getLastD 0
          = getPLFvalue bx bb hi Problem.knapsack)
    ∧ (∀ k, k + 2 < (getEnvelope bx bb lo hi problem).1.length →
        ((getEnvelope bx bb lo hi problem).2.getD (k + 1) 0
            - (getEnvelope bx bb lo hi problem).2.getD k 0)
          / ((getEnvelope bx bb lo hi problem).1.getD (k + 1) 0
            - (getEnvelope bx bb lo hi problem).1.getD k 0)
        ≤ ((getEnvelope bx bb lo hi problem).2.getD (k + 2) 0
            - (getEnvelope bx bb lo hi problem).2.getD (k + 1) 0)
          / ((getEnvelope bx bb lo hi problem).1.getD (k + 2) 0
            - (getEnvelope bx bb lo hi problem).1.getD (k + 1) 0)) := by
  have hpts_head := restrictPoints_head bx bb lo hi hsort hlen hleny hlo hlohi hhi
  have hpts_last := restrictPoints_getLast bx bb lo hi hsort hlen hleny hlo hlohi hhi
  have h2le := restrictPoints_two_le bx bb lo hi hlen hleny
  have hep_head : (envelopePoints bx bb lo hi problem).head?
      = some (lo, if problem = Problem.discNetworkFlow ∧ lo ≤ 0 then 0
                  else getPLFvalue bx bb lo Problem.knapsack) := by
    rw [envelopePoints, adjustJump_head problem lo _ _ hpts_head]
    by_cases hcond : problem = Problem.discNetworkFlow ∧ lo ≤ 0
    · rw [if_pos hcond, if_pos hcond]
    · rw [if_neg hcond, if_neg hcond]
  have hep_last : (envelopePoints bx bb lo hi problem).getLast?
      = some (hi, getPLFvalue bx bb hi Problem.knapsack) := by
    rw [envelopePoints, adjustJump_getLast problem lo _ h2le, hpts_last]
  obtain ⟨p0, t0, hpt⟩ : ∃ p t, envelopePoints bx bb lo hi problem = p :: t := by
    cases hc : envelopePoints bx bb lo hi problem with
    | nil => rw [hc] at hep_head; simp at hep_head
    | cons p t => exact ⟨p, t, rfl⟩
  have hp0 : p0 = (lo, if problem = Problem.discNetworkFlow ∧ lo ≤ 0 then 0
                  else getPLFvalue bx bb lo Problem.knapsack) := by
    rw [hpt] at hep_head
    simpa using hep_head
  have hhull_head : (lowerHull (envelopePoints bx bb lo hi problem)).head?
      = some p0 := by
    rw [hpt]
    exact lowerHull_head p0 t0
  have hhull_last : (lowerHull (envelopePoints bx bb lo hi problem)).getLast?
      = some (hi, getPLFvalue bx bb hi Problem.knapsack) := by
    rw [lowerHull_getLast _ (by rw [hpt]; simp), hep_last]
  refine ⟨⟨?_, ?_⟩, ⟨?_, ?_⟩, ?_⟩
  · simp only [getEnvelope]
    rw [headD_map_fst _ _ hhull_head, hp0]
  · simp only [getEnvelope]
    rw [headD_map_snd _ _ hhull_head, hp0]
  · simp only [getEnvelope]
    rw [getLastD_map_fst _ _ hhull_last]
  · simp only [getEnvelope]
    rw [getLastD_map_snd _ _ hhull_last]
  · intro k hk
    simp only [getEnvelope] at hk ⊢
    rw [List.length_map] at hk
    rw [getD_map_snd _ _ (by omega), getD_map_snd _ _ (by omega),
      getD_map_snd _ _ (by omega), getD_map_fst _ _ (by omega),
      getD_map_fst _ _ (by omega), getD_map_fst _ _ (by omega)]
    have hsm : StackMono ((envelopePoints bx bb lo hi problem).foldl hullStep []) :=
      foldl_hullStep_stackMono _ [] trivial
    have hx := reverse_stackMono_getD _ hsm k
      (by
        rw [List.length_reverse]
        have hl : (lowerHull (envelopePoints bx bb lo hi problem)).length
            = ((envelopePoints bx bb lo hi problem).foldl hullStep []).length := by
          rw [lowerHull, List.length_reverse]
        omega)
    simpa only [slope, lowerHull] using hx

theorem getEnvelope_endpoints_and_slopes_witness :
    (List.Pairwise (· < ·) ([(-1 : ℚ), 0, 1] : List ℚ)
      ∧ 2 ≤ ([(-1 : ℚ), 0, 1] : List ℚ).length
      ∧ ([(1 : ℚ), 0, 1] : List ℚ).length = ([(-1 : ℚ), 0, 1] : List ℚ).length
      ∧ ([(-1 : ℚ), 0, 1] : List ℚ).headD 0 ≤ (-1 : ℚ)
      ∧ (-1 : ℚ) < 1 ∧ (1 : ℚ) ≤ ([(-1 : ℚ), 0, 1] : List ℚ).getLastD 0) ∧
    (((getEnvelope [-1, 0, 1] [1, 0, 1] (-1) 1 Problem.knapsack).1.headD 0 = -1
      ∧ (getEnvelope [-1, 0, 1] [1, 0, 1] (-1) 1 Problem.knapsack).2.headD 0
          = (if Problem.knapsack = Problem.discNetworkFlow ∧ (-1 : ℚ) ≤ 0 then 0
             else getPLFvalue [-1, 0, 1] [1, 0, 1] (-1) Problem.knapsack))
    ∧ ((getEnvelope [-1, 0, 1] [1, 0, 1] (-1) 1 Problem.knapsack).1.getLastD 0 = 1
      ∧ (getEnvelope [-1, 0, 1] [1, 0, 1] (-1) 1 Problem.knapsack).2.getLastD 0
          = getPLFvalue [-1, 0, 1] [1, 0, 1] 1 Problem.knapsack)
    ∧ (∀ k, k + 2 < (getEnvelope [-1, 0, 1] [1, 0, 1] (-1) 1 Problem.knapsack).1.length →
        ((getEnvelope [-1, 0, 1] [1, 0, 1] (-1) 1 Problem.knapsack).2.getD (k + 1) 0
            - (getEnvelope [-1, 0, 1] [1, 0, 1] (-1) 1 Problem.knapsack).2.getD k 0)
          / ((getEnvelope [-1, 0, 1] [1, 0, 1] (-1) 1 Problem.knapsack).1.getD (k + 1) 0
            - (getEnvelope [-1, 0, 1] [1, 0, 1] (-1) 1 Problem.knapsack).1.getD k 0)
        ≤ ((getEnvelope [-1, 0, 1] [1, 0, 1] (-1) 1 Problem.knapsack).2.getD (k + 2) 0
            - (getEnvelope [-1, 0, 1] [1, 0, 1] (-1) 1 Problem.knapsack).2.getD (k + 1) 0)
          / ((getEnvelope [-1, 0, 1] [1, 0, 1] (-1) 1 Problem.knapsack).1.getD (k + 2) 0
            - (getEnvelope [-1, 0, 1] [1, 0, 1] (-1) 1 Problem.knapsack).1.getD (k + 1) 0))) := by
  refine ⟨⟨by norm_num, by norm_num, by norm_num, by norm_num, by norm_num, by norm_num⟩, ?_⟩
  exact getEnvelope_endpoints_and_slopes [-1, 0, 1] [1, 0, 1] (-1) 1 Problem.knapsack
    (by norm_num) (by norm_num) (by norm_num) (by norm_num) (by norm_num) (by norm_num)

/-! ### Claim C1: the envelope is a pointwise under-estimator

`chainInterp` is the piecewise-linear interpolation through a chain of
points with increasing x: on each segment it evaluates the code's envelope
cut expression `slope * (x - x_left) + y_left`; left of the first segment it
extends the first segment's line, right of the last point it is constant
(the boundary value, matching `getPLFvalue`). -/

/-- The line through `p` and `q`, written as the code writes its cuts:
`slope * (x - p.x) + p.y`. -/
def interpSeg (p q : ℚ × ℚ) (x : ℚ) : ℚ :=
  slope p q * (x - p.1) + p.2

/-- Piecewise-linear interpolation through a chain of points. -/
def chainInterp : List (ℚ × ℚ) → ℚ → ℚ
  | [], _ => 0
  | [p], _ => p.2
  | p :: q :: rest, x =>
    if x ≤ q.1 then interpSeg p q x else chainInterp (q :: rest) x

theorem interpSeg_left (p q : ℚ × ℚ) : interpSeg p q p.1 = p.2 := by
  simp [interpSeg]

theorem slope_mul_run (p q : ℚ × ℚ) (h : p.1 ≠ q.1) :
    slope p q * (q.1 - p.1) = q.2 - p.2 := by
  rw [slope, div_mul_cancel₀]
  exact sub_ne_zero.mpr (Ne.symm h)

theorem interpSeg_right (p q : ℚ × ℚ) (h : p.1 ≠ q.1) :
    interpSeg p q q.1 = q.2 := by
  rw [interpSeg]
  have := slope_mul_run p q h
  linarith

/-- The same line written through its right point. -/
theorem interpSeg_eq_right (p q : ℚ × ℚ) (h : p.1 ≠ q.1) (x : ℚ) :
    interpSeg p q x = slope p q * (x - q.1) + q.2 := by
  rw [interpSeg]
  have := slope_mul_run p q h
  linarith [mul_sub (slope p q) (x - p.1) (x - q.1)]

theorem pairwiseP_lt_getD (l : List (ℚ × ℚ))
    (hs : List.Pairwise (fun u v => u.1 < v.1) l)
    (i j : ℕ) (hij : i < j) (hj : j < l.length) :
    (l.getD i (0, 0)).1 < (l.getD j (0, 0)).1 := by
  rw [getDP_eq_getElem l i (lt_trans hij hj), getDP_eq_getElem l j hj]
  exact List.pairwise_iff_getElem.mp hs i j (lt_trans hij hj) hj hij

/-- `chainInterp` passes through every point of a strictly-x-increasing
chain. -/
theorem chainInterp_breakpoint (c : List (ℚ × ℚ))
    (hs : List.Pairwise (fun u v => u.1 < v.1) c) (k : ℕ) (hk : k < c.length) :
    chainInterp c (c.getD k (0, 0)).1 = (c.getD k (0, 0)).2 := by
  induction c generalizing k with
  | nil => simp at hk
  | cons p t ih =>
    cases t with
    | nil =>
      have hk0 : k = 0 := by simpa using hk
      subst hk0
      rfl
    | cons q rest =>
      cases k with
      | zero =>
        simp only [List.getD_cons_zero]
        have hpq : p.1 < q.1 := List.rel_of_pairwise_cons hs (by simp)
        rw [chainInterp, if_pos (le_of_lt hpq)]
        exact interpSeg_left p q
      | succ j =>
        simp only [List.getD_cons_succ]
        have hpq : p.1 < q.1 := List.rel_of_pairwise_cons hs (by simp)
        cases j with
        | zero =>
          simp only [List.getD_cons_zero]
          rw [chainInterp, if_pos (le_refl _)]
          exact interpSeg_right p q (ne_of_lt hpq)
        | succ i =>
          have hq_lt : q.1 < ((q :: rest).getD (i + 1) (0, 0)).1 := by
            have := pairwiseP_lt_getD (q :: rest) hs.tail 0 (i + 1) (by omega)
              (by simpa using hk)
            simpa using this
          rw [chainInterp, if_neg (not_le.mpr (by simpa using hq_lt))]
          exact ih hs.tail (i + 1) (by simpa using hk)

/-- Last-element helpers for pair lists. -/
theorem getLastD_cons_cons_p (a b : ℚ × ℚ) (l : List (ℚ × ℚ)) :
    (a :: b :: l).getLastD (0, 0) = (b :: l).getLastD (0, 0) := by
  rw [List.getLastD_eq_getLast?, List.getLastD_eq_getLast?, List.getLast?_cons_cons]

theorem getLastD_mem_p (l : List (ℚ × ℚ)) (hne : l ≠ []) :
    l.getLastD (0, 0) ∈ l := by
  have h1 : l.getLastD (0, 0) = l.getLast hne := by
    rw [List.getLastD_eq_getLast?, List.getLast?_eq_getLast l hne]
    rfl
  rw [h1]
  exact List.getLast_mem hne

/-- Right of the last point the interpolation is the last y-value. -/
theorem chainInterp_ge_last (c : List (ℚ × ℚ))
    (hs : List.Pairwise (fun u v => u.1 < v.1) c) (hne : c ≠ []) (x : ℚ)
    (hx : (c.getLastD (0, 0)).1 ≤ x) :
    chainInterp c x = (c.getLastD (0, 0)).2 := by
  induction c with
  | nil => exact absurd rfl hne
  | cons p t ih =>
    cases t with
    | nil => rfl
    | cons q rest =>
      have hpq : p.1 < q.1 := List.rel_of_pairwise_cons hs (by simp)
      rw [getLastD_cons_cons_p] at hx ⊢
      cases rest with
      | nil =>
        have hq : ([q] : List (ℚ × ℚ)).getLastD (0, 0) = q := rfl
        rw [hq] at hx ⊢
        rw [chainInterp]
        by_cases hxq : x ≤ q.1
        · rw [if_pos hxq]
          have hxeq : x = q.1 := le_antisymm hxq hx
          rw [hxeq]
          exact interpSeg_right p q (ne_of_lt hpq)
        · rw [if_neg hxq]
          rfl
      | cons r rest2 =>
        have hmem : ((q :: r :: rest2).getLastD (0, 0)) ∈ r :: rest2 := by
          rw [getLastD_cons_cons_p]
          exact getLastD_mem_p (r :: rest2) (by simp)
        have hql : q.1 < ((q :: r :: rest2).getLastD (0, 0)).1 :=
          List.rel_of_pairwise_cons hs.tail hmem
        rw [chainInterp, if_neg (not_le.mpr (lt_of_lt_of_le hql hx))]
        exact ih hs.tail (by simp) hx

theorem zip_getD (bx bb : List ℚ) (k : ℕ) (hk : k < bx.length)
    (hky : k < bb.length) :
    (bx.zip bb).getD k (0, 0) = (bx.getD k 0, bb.getD k 0) := by
  rw [getDP_eq_getElem _ k (by rw [List.length_zip]; omega), List.getElem_zip,
    getD_eq_getElem bx k hk, getD_eq_getElem bb k hky]

theorem zip_pairwise_fst (bx bb : List ℚ)
    (hsort : List.Pairwise (· < ·) bx) :
    List.Pairwise (fun u v => u.1 < v.1) (bx.zip bb) := by
  apply List.pairwise_iff_getElem.mpr
  intro i j hi hj hij
  have hzl : (bx.zip bb).length ≤ bx.length := by
    rw [List.length_zip]
    omega
  rw [List.getElem_zip, List.getElem_zip]
  exact List.pairwise_iff_getElem.mp hsort i j (lt_of_lt_of_le hi hzl)
    (lt_of_lt_of_le hj hzl) hij

/-- `chainInterp` on the segment that brackets `x`. -/
theorem chainInterp_locate (c : List (ℚ × ℚ))
    (hs : List.Pairwise (fun u v => u.1 < v.1) c) (j : ℕ) (x : ℚ)
    (hj : j + 1 < c.length)
    (h1 : (c.getD j (0, 0)).1 ≤ x) (h2 : x ≤ (c.getD (j + 1) (0, 0)).1) :
    chainInterp c x = interpSeg (c.getD j (0, 0)) (c.getD (j + 1) (0, 0)) x := by
  induction c generalizing j with
  | nil => simp at hj
  | cons p t ih =>
    cases t with
    | nil => simp at hj
    | cons q rest =>
      have hpq : p.1 < q.1 := List.rel_of_pairwise_cons hs (by simp)
      cases j with
      | zero =>
        simp only [List.getD_cons_zero, List.getD_cons_succ] at h1 h2 ⊢
        rw [chainInterp, if_pos (by simpa using h2)]
      | succ i =>
        simp only [List.getD_cons_succ] at h1 h2 ⊢
        have hi_len : i + 1 < (q :: rest).length := by simpa using hj
        have hq_le : q.1 ≤ ((q :: rest).getD i (0, 0)).1 := by
          cases i with
          | zero => simp
          | succ i2 =>
            exact le_of_lt (by
              have := pairwiseP_lt_getD (q :: rest) hs.tail 0 (i2 + 1)
                (by omega) (by omega)
              simpa using this)
        by_cases hxq : x ≤ q.1
        · have hxeq : x = q.1 := le_antisymm hxq (le_trans hq_le h1)
          have hieq : ((q :: rest).getD i (0, 0)).1 = q.1 := by
            have hle2 : ((q :: rest).getD i (0, 0)).1 ≤ q.1 := by
              rw [← hxeq]
              exact h1
            exact le_antisymm hle2 hq_le
          have hi0 : i = 0 := by
            by_contra hne0
            have hlt := pairwiseP_lt_getD (q :: rest) hs.tail 0 i
              (by omega) (by omega)
            simp only [List.getD_cons_zero] at hlt
            linarith [hieq]
          subst hi0
          simp only [List.getD_cons_zero] at hieq ⊢
          rw [chainInterp, if_pos hxq, hxeq]
          rw [interpSeg_right p q (ne_of_lt hpq)]
          exact (interpSeg_left q _).symm
        · rw [chainInterp, if_neg hxq]
          exact ih hs.tail i (by simpa using hj) h1 h2

/-- Plain PLF evaluation is the interpolation through the zipped
breakpoints, for every `x` not left of the domain. -/
theorem getPLFvalue_eq_chainInterp (bx bb : List ℚ)
    (hsort : List.Pairwise (· < ·) bx) (hlen : 2 ≤ bx.length)
    (hleny : bb.length = bx.length) (x : ℚ) (hx : bx.headD 0 ≤ x) :
    getPLFvalue bx bb x Problem.knapsack = chainInterp (bx.zip bb) x := by
  have hne : bx ≠ [] := by intro hcon; rw [hcon] at hlen; simp at hlen
  have hzsorted := zip_pairwise_fst bx bb hsort
  have hzlen : (bx.zip bb).length = bx.length := by
    rw [List.length_zip, hleny, min_self]
  by_cases h1 : x ≤ bx.headD 0
  · have hxeq : x = bx.headD 0 := le_antisymm h1 hx
    rw [getPLFvalue, if_pos h1, if_neg (by simp : ¬ (Problem.knapsack = Problem.discNetworkFlow))]
    have hbp := chainInterp_breakpoint (bx.zip bb) hzsorted 0 (by omega)
    rw [zip_getD bx bb 0 (by omega) (by omega)] at hbp
    rw [hxeq, headD_eq_getD bx, headD_eq_getD bb]
    exact hbp.symm
  · by_cases h2 : bx.getLastD 0 ≤ x
    · rw [getPLFvalue, if_neg h1, if_pos h2]
      have hzl : (bx.zip bb).getLastD (0, 0) = (bx.getLastD 0, bb.getLastD 0) := by
        rw [List.getLastD_eq_getLast?, zip_getLast bx bb hleny hne]
        rfl
      have hch := chainInterp_ge_last (bx.zip bb) hzsorted
        (by intro hcon; rw [hcon] at hzlen; simp at hzlen; omega) x
        (by rw [hzl]; exact h2)
      rw [hzl] at hch
      exact hch.symm
    · rw [getPLFvalue, if_neg h1, if_neg h2]
      have hpos1 : 1 ≤ bisect_right bx x := by
        obtain ⟨u, t, hut⟩ := List.exists_cons_of_ne_nil hne
        subst hut
        exact bisect_right_pos u t x (le_of_lt (by simpa using lt_of_not_le h1))
      have hposlt : bisect_right bx x < bx.length :=
        bisect_right_lt_length bx x hne (lt_of_not_le h2)
      have hbr1 : bx.getD (bisect_right bx x - 1) 0 ≤ x :=
        bisect_right_getD_le bx x _ (by omega)
      have hbr2 : x < bx.getD (bisect_right bx x) 0 :=
        bisect_right_getD_gt bx x hposlt
      have hstep : bisect_right bx x - 1 + 1 = bisect_right bx x := by omega
      have hloc := chainInterp_locate (bx.zip bb) hzsorted (bisect_right bx x - 1) x
        (by omega)
        (by rw [zip_getD bx bb _ (by omega) (by omega)]; exact hbr1)
        (by rw [hstep, zip_getD bx bb _ (by omega) (by omega)]; exact le_of_lt hbr2)
      rw [hstep] at hloc
      rw [hloc, zip_getD bx bb _ (by omega) (by omega),
        zip_getD bx bb _ (by omega) (by omega)]
      rfl

/-! #### The pop-free characterisation of the hull loop -/

/-- A point list is processed by the hull loop without any pop. -/
def NoPop (l : List (ℚ × ℚ)) : Prop :=
  l.foldl hullStep [] = l.reverse

theorem noPop_nil : NoPop [] := rfl

theorem noPop_dropLast (E : List (ℚ × ℚ)) (a : ℚ × ℚ)
    (h : NoPop (E ++ [a])) : NoPop E := by
  have hfold : (E ++ [a]).foldl hullStep [] = hullStep (E.foldl hullStep []) a := by
    rw [List.foldl_append]
    rfl
  rw [NoPop, hfold] at h
  obtain ⟨s, hs, hsuf⟩ := hullStep_shape (E.foldl hullStep []) a
  rw [hs, List.reverse_append] at h
  simp only [List.reverse_cons, List.reverse_nil, List.nil_append,
    List.singleton_append, List.cons.injEq] at h
  have hseq : s = E.reverse := h.2
  have hsub : (E.foldl hullStep []).reverse.Sublist E := by
    simpa using foldl_hullStep_sublist E []
  have hlen1 : (E.foldl hullStep []).length ≤ E.length := by
    have := hsub.length_le
    simpa using this
  have hlen2 : s.length = E.length := by rw [hseq]; simp
  have hlen3 := hsuf.length_le
  have heq : s = E.foldl hullStep [] :=
    hsuf.eq_of_length (by omega)
  rw [NoPop, ← heq, hseq]

/-- Either the whole input is processed without pops, or there is a first
pop: the input splits as `D ++ [q, c] ++ B` where `D ++ [q]` is pop-free and
the candidate `c` pops `q` (the slope condition of line 126 holds with
`a = last of D`, `b = q`, `p = c`). -/
theorem hull_dichotomy (pts : List (ℚ × ℚ)) :
    NoPop pts ∨ ∃ D q c B, pts = D ++ q :: c :: B ∧ D ≠ [] ∧
      NoPop (D ++ [q]) ∧ NoPop D ∧
      (c.2 - q.2) / (c.1 - q.1)
        < (q.2 - (D.getLastD (0, 0)).2) / (q.1 - (D.getLastD (0, 0)).1) := by
  induction pts using List.reverseRecOn with
  | nil => exact Or.inl noPop_nil
  | append_singleton E z ih =>
    rcases ih with hnp | ⟨D, q, c, B, hsplit, hD, hnpq, hnpD, hcond⟩
    · cases hrev : E.reverse with
      | nil =>
        have hE : E = [] := by simpa using congrArg List.reverse hrev
        subst hE
        exact Or.inl rfl
      | cons q t =>
        have hEeq : E = t.reverse ++ [q] := by
          have := congrArg List.reverse hrev
          simpa using this
        cases t with
        | nil =>
          left
          have hE : E = [q] := by simpa using hEeq
          subst hE
          rfl
        | cons u rrest =>
          by_cases hc : (z.2 - q.2) / (z.1 - q.1) < (q.2 - u.2) / (q.1 - u.1)
          · right
            refine ⟨rrest.reverse ++ [u], q, z, [], ?_, by simp, ?_, ?_, ?_⟩
            · rw [hEeq]
              simp
            · rw [show (rrest.reverse ++ [u]) ++ [q] = E from by rw [hEeq]; simp]
              exact hnp
            · apply noPop_dropLast (rrest.reverse ++ [u]) q
              rw [show (rrest.reverse ++ [u]) ++ [q] = E from by rw [hEeq]; simp]
              exact hnp
            · rw [List.getLastD_eq_getLast?, List.getLast?_concat]
              exact hc
          · left
            rw [NoPop, List.foldl_append, hnp, hrev]
            simp only [List.foldl_cons, List.foldl_nil]
            rw [show hullStep (q :: u :: rrest) z = z :: q :: u :: rrest from by
              simp only [hullStep]; rw [if_neg hc]]
            rw [List.reverse_append, hrev]
            rfl
    · right
      refine ⟨D, q, c, B ++ [z], ?_, hD, hnpq, hnpD, hcond⟩
      rw [hsplit]
      simp

/-- Removing the first-popped point does not change the result of the hull
loop. -/
theorem foldl_erase_of_pop (D : List (ℚ × ℚ)) (q c : ℚ × ℚ)
    (B : List (ℚ × ℚ)) (hD : D ≠ []) (hnpq : NoPop (D ++ [q]))
    (hnpD : NoPop D)
    (hcond : (c.2 - q.2) / (c.1 - q.1)
        < (q.2 - (D.getLastD (0, 0)).2) / (q.1 - (D.getLastD (0, 0)).1)) :
    (D ++ q :: c :: B).foldl hullStep [] = (D ++ c :: B).foldl hullStep [] := by
  obtain ⟨D2, u, hDu⟩ := (List.eq_nil_or_concat D).resolve_left hD
  have hlastD : D.getLastD (0, 0) = u := by
    rw [hDu, List.concat_eq_append, List.getLastD_eq_getLast?, List.getLast?_concat]
    rfl
  rw [hlastD] at hcond
  have h1 : D ++ q :: c :: B = (D ++ [q]) ++ c :: B := by simp
  rw [h1, List.foldl_append, hnpq]
  have h2 : (D ++ [q]).reverse = q :: D.reverse := by simp
  rw [h2, List.foldl_cons]
  have hrev : D.reverse = u :: D2.reverse := by rw [hDu, List.concat_eq_append]; simp
  have hstep : hullStep (q :: D.reverse) c = hullStep D.reverse c := by
    rw [hrev]
    simp only [hullStep]
    rw [if_pos hcond]
  rw [hstep]
  have h3 : D ++ c :: B = (D ++ [c]) ++ B := by simp
  rw [h3, List.foldl_append]
  have h4 : (D ++ [c]).foldl hullStep [] = hullStep (D.foldl hullStep []) c := by
    rw [List.foldl_append]
    rfl
  rw [h4, hnpD]

/-! #### Geometry of a popped point -/

theorem line_mono_of_slope_le (σ σ' x0 y0 x : ℚ) (hσ : σ ≤ σ') (hx : x0 ≤ x) :
    σ * (x - x0) + y0 ≤ σ' * (x - x0) + y0 := by
  have := mul_le_mul_of_nonneg_right hσ (sub_nonneg.mpr hx)
  linarith

theorem line_anti_of_slope_le (σ σ' x0 y0 x : ℚ) (hσ : σ ≤ σ') (hx : x ≤ x0) :
    σ' * (x - x0) + y0 ≤ σ * (x - x0) + y0 := by
  have := mul_le_mul_of_nonpos_right hσ (show x - x0 ≤ 0 by linarith)
  linarith

/-- A point on or above the chord `u—c` bounds the slope of the chord by the
slope to the left part. -/
theorem slope_le_of_above (u q c : ℚ × ℚ) (h1 : u.1 < q.1) (_h2 : q.1 < c.1)
    (habove : interpSeg u c q.1 ≤ q.2) : slope u c ≤ slope u q := by
  have hrun := slope_mul_run u q (ne_of_lt h1)
  rw [interpSeg] at habove
  have h3 : slope u c * (q.1 - u.1) ≤ slope u q * (q.1 - u.1) := by linarith
  exact le_of_mul_le_mul_right h3 (by linarith)

theorem slope_ge_of_above (u q c : ℚ × ℚ) (h1 : u.1 < q.1) (h2 : q.1 < c.1)
    (habove : interpSeg u c q.1 ≤ q.2) : slope q c ≤ slope u c := by
  have hr1 := interpSeg_eq_right u c (ne_of_lt (lt_trans h1 h2)) q.1
  have hr2 := slope_mul_run q c (ne_of_lt h2)
  rw [hr1] at habove
  have hq2 : slope q c * (q.1 - c.1) = q.2 - c.2 := by linear_combination -hr2
  have h3 : slope u c * (q.1 - c.1) ≤ slope q c * (q.1 - c.1) := by linarith
  by_contra hcon
  push_neg at hcon
  have := mul_lt_mul_of_neg_right hcon (show q.1 - c.1 < 0 by linarith)
  linarith

/-- The pop condition of the hull loop says the popped point lies on or above
the chord joining its stack neighbour and the candidate. -/
theorem above_of_popcond (u q c : ℚ × ℚ) (h1 : u.1 < q.1) (h2 : q.1 < c.1)
    (hcond : (c.2 - q.2) / (c.1 - q.1) < (q.2 - u.2) / (q.1 - u.1)) :
    interpSeg u c q.1 ≤ q.2 := by
  rw [div_lt_div_iff₀ (by linarith) (by linarith)] at hcond
  rw [interpSeg, slope]
  have hd : (0 : ℚ) < c.1 - u.1 := by linarith
  rw [div_mul_eq_mul_div, ← le_sub_iff_add_le, div_le_iff₀ hd]
  nlinarith [hcond]

/-- Removing a point that lies on or above the chord of its neighbours
lowers the interpolation pointwise (right of the first point). -/
theorem chainInterp_erase_le (D : List (ℚ × ℚ)) (q c : ℚ × ℚ)
    (B : List (ℚ × ℚ)) (x : ℚ)
    (hs : List.Pairwise (fun u v => u.1 < v.1) (D ++ q :: c :: B))
    (hD : D ≠ [])
    (habove : interpSeg (D.getLastD (0, 0)) c q.1 ≤ q.2)
    (hx : (D.headD (0, 0)).1 ≤ x) :
    chainInterp (D ++ c :: B) x ≤ chainInterp (D ++ q :: c :: B) x := by
  induction D with
  | nil => exact absurd rfl hD
  | cons d D' ih =>
    cases D' with
    | nil =>
      have hlast : ([d] : List (ℚ × ℚ)).getLastD (0, 0) = d := rfl
      rw [hlast] at habove
      simp only [List.cons_append, List.nil_append] at hs ⊢
      have hdq : d.1 < q.1 := List.rel_of_pairwise_cons hs (by simp)
      have hqc : q.1 < c.1 := List.rel_of_pairwise_cons hs.tail (by simp)
      have hdc : d.1 < c.1 := lt_trans hdq hqc
      have hs1 : slope d c ≤ slope d q := slope_le_of_above d q c hdq hqc habove
      have hs2 : slope q c ≤ slope d c := slope_ge_of_above d q c hdq hqc habove
      have hxd : d.1 ≤ x := hx
      by_cases hx1 : x ≤ q.1
      · rw [show chainInterp (d :: c :: B) x = interpSeg d c x from by
          rw [chainInterp, if_pos (le_of_lt (lt_of_le_of_lt hx1 hqc))]]
        rw [show chainInterp (d :: q :: c :: B) x = interpSeg d q x from by
          rw [chainInterp, if_pos hx1]]
        rw [interpSeg, interpSeg]
        exact line_mono_of_slope_le _ _ _ _ _ hs1 hxd
      · by_cases hx2 : x ≤ c.1
        · rw [show chainInterp (d :: c :: B) x = interpSeg d c x from by
            rw [chainInterp, if_pos hx2]]
          rw [show chainInterp (d :: q :: c :: B) x = chainInterp (q :: c :: B) x from by
            rw [chainInterp, if_neg hx1]]
          rw [show chainInterp (q :: c :: B) x = interpSeg q c x from by
            rw [chainInterp, if_pos hx2]]
          rw [interpSeg_eq_right d c (ne_of_lt hdc), interpSeg_eq_right q c (ne_of_lt hqc)]
          exact line_anti_of_slope_le (slope q c) (slope d c) c.1 c.2 x hs2 hx2
        · rw [show chainInterp (d :: c :: B) x = chainInterp (c :: B) x from by
            rw [chainInterp, if_neg hx2]]
          rw [show chainInterp (d :: q :: c :: B) x = chainInterp (q :: c :: B) x from by
            rw [chainInterp, if_neg hx1]]
          rw [show chainInterp (q :: c :: B) x = chainInterp (c :: B) x from by
            rw [chainInterp, if_neg hx2]]
    | cons d2 D'' =>
      simp only [List.cons_append] at hs ⊢
      have hdd2 : d.1 < d2.1 := List.rel_of_pairwise_cons hs (by simp)
      by_cases hx1 : x ≤ d2.1
      · rw [show chainInterp (d :: d2 :: (D'' ++ c :: B)) x = interpSeg d d2 x from by
          rw [chainInterp, if_pos hx1]]
        rw [show chainInterp (d :: d2 :: (D'' ++ q :: c :: B)) x = interpSeg d d2 x from by
          rw [chainInterp, if_pos hx1]]
      · rw [show chainInterp (d :: d2 :: (D'' ++ c :: B)) x
            = chainInterp (d2 :: (D'' ++ c :: B)) x from by
          rw [chainInterp, if_neg hx1]]
        rw [show chainInterp (d :: d2 :: (D'' ++ q :: c :: B)) x
            = chainInterp (d2 :: (D'' ++ q :: c :: B)) x from by
          rw [chainInterp, if_neg hx1]]
        have hlast2 : (d2 :: D'').getLastD (0, 0) = ((d :: d2 :: D'').getLastD (0, 0)) :=
          (getLastD_cons_cons_p d d2 D'').symm
        have hres := ih hs.tail (by simp) (by rw [hlast2]; exact habove)
          (le_of_lt (lt_of_not_le hx1))
        simpa using hres

theorem headD_append_p (D L : List (ℚ × ℚ)) (hD : D ≠ []) :
    ((D ++ L).headD (0, 0)) = D.headD (0, 0) := by
  cases D with
  | nil => exact absurd rfl hD
  | cons d t => rfl

/-- The hull loop's output interpolation never exceeds the input
interpolation (fuel-indexed induction on the number of points). -/
theorem lowerHull_le_aux (n : ℕ) : ∀ (pts : List (ℚ × ℚ)), pts.length ≤ n →
    List.Pairwise (fun u v => u.1 < v.1) pts → ∀ x, (pts.headD (0, 0)).1 ≤ x →
    chainInterp (lowerHull pts) x ≤ chainInterp pts x := by
  induction n with
  | zero =>
    intro pts hlen hs x hx
    have hnil : pts = [] := List.eq_nil_of_length_eq_zero (by omega)
    subst hnil
    exact le_refl _
  | succ n ih =>
    intro pts hlen hs x hx
    rcases hull_dichotomy pts with hnp | ⟨D, q, c, B, hsplit, hD, hnpq, hnpD, hcond⟩
    · have heq : lowerHull pts = pts := by
        rw [lowerHull, hnp, List.reverse_reverse]
      rw [heq]
    · subst hsplit
      obtain ⟨hsD, hstail, hcross⟩ := List.pairwise_append.mp hs
      have hu_q : (D.getLastD (0, 0)).1 < q.1 :=
        hcross (D.getLastD (0, 0)) (getLastD_mem_p D hD) q (by simp)
      have hq_c : q.1 < c.1 := List.rel_of_pairwise_cons hstail (by simp)
      have habove := above_of_popcond (D.getLastD (0, 0)) q c hu_q hq_c hcond
      have hrw : lowerHull (D ++ q :: c :: B) = lowerHull (D ++ c :: B) := by
        rw [lowerHull, lowerHull, foldl_erase_of_pop D q c B hD hnpq hnpD hcond]
      have hsub : (D ++ c :: B).Sublist (D ++ q :: c :: B) :=
        List.Sublist.append_left ((List.suffix_cons q (c :: B)).sublist) D
      have hs2 : List.Pairwise (fun u v => u.1 < v.1) (D ++ c :: B) :=
        hs.sublist hsub
      have hlen2 : (D ++ c :: B).length ≤ n := by
        simp only [List.length_append, List.length_cons] at hlen ⊢
        omega
      have hheadD : ((D ++ c :: B).headD (0, 0)).1 ≤ x := by
        rw [headD_append_p D (c :: B) hD]
        rw [headD_append_p D (q :: c :: B) hD] at hx
        exact hx
      have hheadx : ((D.headD (0, 0)).1 ≤ x) := by
        rw [headD_append_p D (q :: c :: B) hD] at hx
        exact hx
      calc chainInterp (lowerHull (D ++ q :: c :: B)) x
          = chainInterp (lowerHull (D ++ c :: B)) x := by rw [hrw]
        _ ≤ chainInterp (D ++ c :: B) x := ih (D ++ c :: B) hlen2 hs2 x hheadD
        _ ≤ chainInterp (D ++ q :: c :: B) x :=
            chainInterp_erase_le D q c B x hs hD habove hheadx

/-- The monotone-chain output under-estimates the input chain pointwise. -/
theorem lowerHull_le_chainInterp (pts : List (ℚ × ℚ))
    (hs : List.Pairwise (fun u v => u.1 < v.1) pts) (x : ℚ)
    (hx : (pts.headD (0, 0)).1 ≤ x) :
    chainInterp (lowerHull pts) x ≤ chainInterp pts x :=
  lowerHull_le_aux pts.length pts (le_refl _) hs x hx

/-! #### Restriction to a sub-interval preserves the interpolation -/

/-- If every segment of `c1` interpolates exactly like `c2` on its x-range,
then the chains agree between the first and last point of `c1`. -/
theorem chainInterp_congr : ∀ (c1 c2 : List (ℚ × ℚ)) (x : ℚ),
    2 ≤ c1.length →
    (∀ j, j + 1 < c1.length → ∀ y, (c1.getD j (0, 0)).1 ≤ y →
        y ≤ (c1.getD (j + 1) (0, 0)).1 →
        interpSeg (c1.getD j (0, 0)) (c1.getD (j + 1) (0, 0)) y = chainInterp c2 y) →
    (c1.headD (0, 0)).1 ≤ x → x ≤ (c1.getLastD (0, 0)).1 →
    chainInterp c1 x = chainInterp c2 x := by
  intro c1
  induction c1 with
  | nil => intro c2 x hlen; simp at hlen
  | cons p t ih =>
    intro c2 x hlen h hx1 hx2
    cases t with
    | nil => simp at hlen
    | cons q rest =>
      by_cases hxq : x ≤ q.1
      · rw [chainInterp, if_pos hxq]
        have := h 0 (by simp) x hx1 (by simpa using hxq)
        simpa using this
      · rw [chainInterp, if_neg hxq]
        cases rest with
        | nil =>
          exfalso
          rw [getLastD_cons_cons_p] at hx2
          exact hxq (by simpa using hx2)
        | cons r rest2 =>
          apply ih c2 x (by simp)
          · intro j hj y hy1 hy2
            have := h (j + 1) (by simpa using Nat.succ_lt_succ hj) y
              (by simpa using hy1) (by simpa using hy2)
            simpa using this
          · exact le_of_lt (lt_of_not_le hxq)
          · rw [getLastD_cons_cons_p] at hx2
            exact hx2

/-- The chord between two points on a line is the same line. -/
theorem interpSeg_on_line (P Q : ℚ × ℚ) (u1 w1 : ℚ) (huw : u1 ≠ w1) (x : ℚ) :
    interpSeg (u1, interpSeg P Q u1) (w1, interpSeg P Q w1) x
      = interpSeg P Q x := by
  have hs : slope (u1, interpSeg P Q u1) (w1, interpSeg P Q w1) = slope P Q := by
    rw [slope]
    have hnum : (interpSeg P Q w1 - interpSeg P Q u1)
        = slope P Q * (w1 - u1) := by
      simp only [interpSeg]
      ring
    show (interpSeg P Q w1 - interpSeg P Q u1) / (w1 - u1) = slope P Q
    rw [hnum, mul_div_assoc, div_self (sub_ne_zero.mpr (Ne.symm huw)), mul_one]
  rw [show interpSeg (u1, interpSeg P Q u1) (w1, interpSeg P Q w1) x
      = slope (u1, interpSeg P Q u1) (w1, interpSeg P Q w1) * (x - u1)
        + interpSeg P Q u1 from rfl]
  rw [hs]
  simp only [interpSeg]
  ring

/-- `bisect_right lo ≤ bisect_left hi` whenever `lo < hi`. -/
theorem bisect_right_le_bisect_left (xs : List ℚ) (lo hi : ℚ) (h : lo < hi) :
    bisect_right xs lo ≤ bisect_left xs hi := by
  induction xs with
  | nil => simp [bisect_right, bisect_left]
  | cons x t ih =>
    simp only [bisect_right, bisect_left]
    by_cases hx : lo < x
    · simp only [hx, if_true]
      omega
    · have hx2 : ¬ (hi ≤ x) := by
        push_neg
        exact lt_of_le_of_lt (le_of_not_lt hx) h
      simp only [hx, hx2, if_false]
      omega

/-- Positional structure of `restrictPoints` in the partial-interval branch:
index 0 is the left edge, indices `1..m` are the kept original breakpoints
(`m = pos_right - pos_left`), index `m+1` is the right edge. -/
theorem restrictPoints_struct (bx bb : List ℚ) (lo hi : ℚ)
    (_hlen : 2 ≤ bx.length) (hleny : bb.length = bx.length)
    (hlohi : lo < hi)
    (hprlen : bisect_left bx hi ≤ bx.length)
    (hnotfull : ¬ (lo = bx.headD 0 ∧ hi = bx.getLastD 0)) :
    (restrictPoints bx bb lo hi).length
        = (bisect_left bx hi - bisect_right bx lo) + 2
    ∧ (restrictPoints bx bb lo hi).getD 0 (0, 0)
        = (lo, interpAt bx bb (bisect_right bx lo) lo)
    ∧ (∀ i, i < bisect_left bx hi - bisect_right bx lo →
        (restrictPoints bx bb lo hi).getD (i + 1) (0, 0)
          = (bx.getD (bisect_right bx lo + i) 0, bb.getD (bisect_right bx lo + i) 0))
    ∧ (restrictPoints bx bb lo hi).getD
        (bisect_left bx hi - bisect_right bx lo + 1) (0, 0)
        = (hi, interpAt bx bb (bisect_left bx hi) hi) := by
  have hzlen : (bx.zip bb).length = bx.length := by
    rw [List.length_zip, hleny, min_self]
  have hplpr : bisect_right bx lo ≤ bisect_left bx hi :=
    bisect_right_le_bisect_left bx lo hi hlohi
  have hmlen : (((bx.zip bb).drop (bisect_right bx lo)).take
      (bisect_left bx hi - bisect_right bx lo)).length
      = bisect_left bx hi - bisect_right bx lo := by
    rw [List.length_take, List.length_drop, hzlen]
    omega
  rw [restrictPoints, if_neg hnotfull]
  refine ⟨?_, rfl, ?_, ?_⟩
  · simp only [List.length_append, List.length_cons, List.length_nil, hmlen]
  · intro i hi2
    rw [getDP_eq_getElem _ (i + 1) (by
      simp only [List.length_append, List.length_cons, List.length_nil, hmlen]
      omega)]
    rw [List.getElem_append_left (by
      simp only [List.length_cons, hmlen]
      omega)]
    rw [List.getElem_cons_succ]
    rw [List.getElem_take, List.getElem_drop]
    have hidx : bisect_right bx lo + i < bx.length := by omega
    have hz := @List.getElem_zip ℚ ℚ bx bb (bisect_right bx lo + i)
      (by rw [hzlen]; omega)
    rw [hz, getD_eq_getElem bx _ hidx, getD_eq_getElem bb _ (by rw [hleny]; omega)]
  · rw [getDP_eq_getElem _ _ (by
      simp only [List.length_append, List.length_cons, List.length_nil, hmlen]
      omega)]
    rw [List.getElem_append_right (by
      simp only [List.length_cons, hmlen]
      omega)]
    simp only [List.length_cons, hmlen]
    simp

theorem headDP_eq_getD (l : List (ℚ × ℚ)) :
    l.headD (0, 0) = l.getD 0 (0, 0) := by
  cases l <;> rfl

theorem getLastDP_eq_getD (l : List (ℚ × ℚ)) :
    l.getLastD (0, 0) = l.getD (l.length - 1) (0, 0) := by
  rw [List.getLastD_eq_getLast?, List.getLast?_eq_getElem?, ← List.getD_eq_getElem?_getD]

/-- The code's interpolation expression is the chord through the two
bracketing (x, y) pairs. -/
theorem interpAt_eq_interpSeg (bx bb : List ℚ) (pos : ℕ) (x : ℚ) :
    interpAt bx bb pos x
      = interpSeg (bx.getD (pos - 1) 0, bb.getD (pos - 1) 0)
          (bx.getD pos 0, bb.getD pos 0) x := rfl

/-- The x-coordinates of the restricted point list, positionally. -/
theorem restrictPoints_fst (bx bb : List ℚ) (lo hi : ℚ)
    (_hsort : List.Pairwise (· < ·) bx) (hlen : 2 ≤ bx.length)
    (hleny : bb.length = bx.length)
    (_hlo : bx.headD 0 ≤ lo) (hlohi : lo < hi) (hhi : hi ≤ bx.getLastD 0)
    (hnotfull : ¬ (lo = bx.headD 0 ∧ hi = bx.getLastD 0)) :
    ∀ k, k < bisect_left bx hi - bisect_right bx lo + 2 →
      ((restrictPoints bx bb lo hi).getD k (0, 0)).1
        = if k = 0 then lo
          else if k ≤ bisect_left bx hi - bisect_right bx lo
            then bx.getD (bisect_right bx lo + (k - 1)) 0
            else hi := by
  have hne : bx ≠ [] := by intro hcon; rw [hcon] at hlen; simp at hlen
  have hprlt : bisect_left bx hi < bx.length := bisect_left_lt_length bx hi hne hhi
  obtain ⟨hL, h0, hmid, hlast⟩ := restrictPoints_struct bx bb lo hi hlen hleny hlohi
    (le_of_lt hprlt) hnotfull
  intro k hk
  rcases Nat.eq_zero_or_pos k with h0k | h0k
  · subst h0k
    rw [h0]
    simp
  · by_cases hkm : k ≤ bisect_left bx hi - bisect_right bx lo
    · have hk1 : k - 1 < bisect_left bx hi - bisect_right bx lo := by omega
      have hmk := hmid (k - 1) hk1
      rw [show k = (k - 1) + 1 by omega, hmk]
      rw [if_neg (by omega), if_pos (by omega)]
      simp only [show k - 1 + 1 - 1 = k - 1 from by omega]
    · have hkm1 : k = bisect_left bx hi - bisect_right bx lo + 1 := by omega
      rw [hkm1, hlast]
      rw [if_neg (by omega), if_neg (by omega)]

theorem restrictPoints_sorted (bx bb : List ℚ) (lo hi : ℚ)
    (hsort : List.Pairwise (· < ·) bx) (hlen : 2 ≤ bx.length)
    (hleny : bb.length = bx.length)
    (hlo : bx.headD 0 ≤ lo) (hlohi : lo < hi) (hhi : hi ≤ bx.getLastD 0) :
    List.Pairwise (fun u v => u.1 < v.1) (restrictPoints bx bb lo hi) := by
  have hne : bx ≠ [] := by intro hcon; rw [hcon] at hlen; simp at hlen
  by_cases hfull : lo = bx.headD 0 ∧ hi = bx.getLastD 0
  · rw [restrictPoints, if_pos hfull]
    exact zip_pairwise_fst bx bb hsort
  · have hprlt : bisect_left bx hi < bx.length := bisect_left_lt_length bx hi hne hhi
    have hpllt : bisect_right bx lo < bx.length :=
      bisect_right_lt_length bx lo hne (lt_of_lt_of_le hlohi hhi)
    have hplpr : bisect_right bx lo ≤ bisect_left bx hi :=
      bisect_right_le_bisect_left bx lo hi hlohi
    obtain ⟨hL, -, -, -⟩ := restrictPoints_struct bx bb lo hi hlen hleny hlohi
      (le_of_lt hprlt) hfull
    have hfst := restrictPoints_fst bx bb lo hi hsort hlen hleny hlo hlohi hhi hfull
    have hlogt : lo < bx.getD (bisect_right bx lo) 0 :=
      bisect_right_getD_gt bx lo hpllt
    have hhilt : ∀ t, t < bisect_left bx hi → bx.getD t 0 < hi :=
      fun t ht => bisect_left_getD_lt bx hi t ht
    apply List.pairwise_iff_getElem.mpr
    intro i j hi' hj' hij
    rw [← getDP_eq_getElem _ i hi', ← getDP_eq_getElem _ j hj']
    rw [hL] at hi' hj'
    rw [hfst i (by omega), hfst j (by omega)]
    by_cases hi0 : i = 0
    · rw [if_pos hi0]
      by_cases hjm : j ≤ bisect_left bx hi - bisect_right bx lo
      · rw [if_neg (by omega), if_pos hjm]
        calc lo < bx.getD (bisect_right bx lo) 0 := hlogt
          _ ≤ bx.getD (bisect_right bx lo + (j - 1)) 0 :=
            pairwise_lt_getD_le bx hsort _ _ (by omega) (by omega)
      · rw [if_neg (by omega), if_neg hjm]
        exact hlohi
    · rw [if_neg hi0]
      have him : i ≤ bisect_left bx hi - bisect_right bx lo := by omega
      rw [if_pos him]
      by_cases hjm : j ≤ bisect_left bx hi - bisect_right bx lo
      · rw [if_neg (by omega), if_pos hjm]
        exact pairwise_lt_getD bx hsort _ _ (by omega) (by omega)
      · rw [if_neg (by omega), if_neg hjm]
        exact hhilt _ (by omega)

/-- Prepending an on-line left point to a segment keeps the same line. -/
theorem interpSeg_expand_left (P Q : ℚ × ℚ) (u1 : ℚ) (hPQ : P.1 ≠ Q.1)
    (hu : u1 ≠ Q.1) (x : ℚ) :
    interpSeg (u1, interpSeg P Q u1) Q x = interpSeg P Q x := by
  have hQ2 : Q.2 = slope P Q * (Q.1 - P.1) + P.2 := by
    have := slope_mul_run P Q hPQ
    linarith
  have hs : slope (u1, interpSeg P Q u1) Q = slope P Q := by
    show (Q.2 - interpSeg P Q u1) / (Q.1 - u1) = slope P Q
    rw [hQ2, interpSeg]
    rw [show slope P Q * (Q.1 - P.1) + P.2 - (slope P Q * (u1 - P.1) + P.2)
        = slope P Q * (Q.1 - u1) from by ring]
    rw [mul_div_assoc, div_self (sub_ne_zero.mpr (Ne.symm hu)), mul_one]
  show slope (u1, interpSeg P Q u1) Q * (x - u1) + interpSeg P Q u1
      = interpSeg P Q x
  rw [hs, interpSeg, interpSeg]
  ring

/-- Replacing the right endpoint by an on-line point keeps the same line. -/
theorem interpSeg_expand_right (P Q : ℚ × ℚ) (w1 : ℚ) (hw : P.1 ≠ w1) (x : ℚ) :
    interpSeg P (w1, interpSeg P Q w1) x = interpSeg P Q x := by
  have hs : slope P (w1, interpSeg P Q w1) = slope P Q := by
    show (interpSeg P Q w1 - P.2) / (w1 - P.1) = slope P Q
    rw [interpSeg]
    rw [show slope P Q * (w1 - P.1) + P.2 - P.2 = slope P Q * (w1 - P.1) from by ring]
    rw [mul_div_assoc, div_self (sub_ne_zero.mpr (Ne.symm hw)), mul_one]
  show slope P (w1, interpSeg P Q w1) * (x - P.1) + P.2 = interpSeg P Q x
  rw [hs, interpSeg]

/-- `chainInterp` of the zipped breakpoints on a bracketed segment, stated
with the parallel lists. -/
theorem chainInterp_zip_locate (bx bb : List ℚ)
    (hsort : List.Pairwise (· < ·) bx) (hleny : bb.length = bx.length)
    (a : ℕ) (y : ℚ) (hb : a + 1 < bx.length)
    (h1 : bx.getD a 0 ≤ y) (h2 : y ≤ bx.getD (a + 1) 0) :
    chainInterp (bx.zip bb) y
      = interpSeg (bx.getD a 0, bb.getD a 0)
          (bx.getD (a + 1) 0, bb.getD (a + 1) 0) y := by
  have hzlen : (bx.zip bb).length = bx.length := by
    rw [List.length_zip, hleny, min_self]
  have hloc := chainInterp_locate (bx.zip bb) (zip_pairwise_fst bx bb hsort) a y
    (by omega)
    (by rw [zip_getD bx bb a (by omega) (by omega)]; exact h1)
    (by rw [zip_getD bx bb (a + 1) (by omega) (by omega)]; exact h2)
  rw [zip_getD bx bb a (by omega) (by omega),
    zip_getD bx bb (a + 1) (by omega) (by omega)] at hloc
  exact hloc

/-- Restricting to a sub-interval does not change the interpolation inside
the sub-interval. -/
theorem restrictPoints_chainInterp_eq (bx bb : List ℚ) (lo hi : ℚ)
    (hsort : List.Pairwise (· < ·) bx) (hlen : 2 ≤ bx.length)
    (hleny : bb.length = bx.length)
    (hlo : bx.headD 0 ≤ lo) (hlohi : lo < hi) (hhi : hi ≤ bx.getLastD 0)
    (x : ℚ) (hx1 : lo ≤ x) (hx2 : x ≤ hi) :
    chainInterp (restrictPoints bx bb lo hi) x = chainInterp (bx.zip bb) x := by
  have hne : bx ≠ [] := by intro hcon; rw [hcon] at hlen; simp at hlen
  by_cases hfull : lo = bx.headD 0 ∧ hi = bx.getLastD 0
  · rw [restrictPoints, if_pos hfull]
  · have hprlt : bisect_left bx hi < bx.length := bisect_left_lt_length bx hi hne hhi
    have hpllt : bisect_right bx lo < bx.length :=
      bisect_right_lt_length bx lo hne (lt_of_lt_of_le hlohi hhi)
    have hpl1 : 1 ≤ bisect_right bx lo := by
      obtain ⟨u, t, hut⟩ := List.exists_cons_of_ne_nil hne
      subst hut
      exact bisect_right_pos u t lo (by simpa using hlo)
    have hpr1 : 1 ≤ bisect_left bx hi := by
      obtain ⟨u, t, hut⟩ := List.exists_cons_of_ne_nil hne
      subst hut
      exact bisect_left_pos u t hi (by simpa using lt_of_le_of_lt hlo hlohi)
    have hplpr : bisect_right bx lo ≤ bisect_left bx hi :=
      bisect_right_le_bisect_left bx lo hi hlohi
    obtain ⟨hL, h0, hmid, hlast⟩ := restrictPoints_struct bx bb lo hi hlen hleny
      hlohi (le_of_lt hprlt) hfull
    have hloL : bx.getD (bisect_right bx lo - 1) 0 ≤ lo :=
      bisect_right_getD_le bx lo _ (by omega)
    have hloR : lo < bx.getD (bisect_right bx lo) 0 :=
      bisect_right_getD_gt bx lo hpllt
    have hhiL : bx.getD (bisect_left bx hi - 1) 0 < hi :=
      bisect_left_getD_lt bx hi _ (by omega)
    have hhiR : hi ≤ bx.getD (bisect_left bx hi) 0 :=
      bisect_left_getD_ge bx hi hprlt
    apply chainInterp_congr
    · rw [hL]
      omega
    · intro j hj y hy1 hy2
      rw [hL] at hj
      by_cases hj0 : j = 0
      · subst hj0
        rw [h0] at hy1 ⊢
        have hy1' : lo ≤ y := by simpa using hy1
        by_cases hm0 : bisect_left bx hi - bisect_right bx lo = 0
        · have hpreq : bisect_left bx hi = bisect_right bx lo := by omega
          have h1 : (restrictPoints bx bb lo hi).getD 1 (0, 0)
              = (hi, interpAt bx bb (bisect_left bx hi) hi) := by
            have hl2 := hlast
            rw [hm0] at hl2
            simpa using hl2
          rw [h1] at hy2 ⊢
          have hy2' : y ≤ hi := by simpa using hy2
          have hhiR' : hi ≤ bx.getD (bisect_right bx lo) 0 := by
            rw [← hpreq]
            exact hhiR
          rw [hpreq]
          rw [interpAt_eq_interpSeg, interpAt_eq_interpSeg,
            interpSeg_on_line _ _ lo hi (ne_of_lt hlohi) y]
          have hstep : bisect_right bx lo - 1 + 1 = bisect_right bx lo := by omega
          have hloc := chainInterp_zip_locate bx bb hsort hleny
            (bisect_right bx lo - 1) y (by omega)
            (le_trans hloL hy1')
            (by rw [hstep]; exact le_trans hy2' hhiR')
          rw [hstep] at hloc
          exact hloc.symm
        · have h1 := hmid 0 (by omega)
          simp only [Nat.add_zero] at h1
          rw [h1] at hy2 ⊢
          have hy2' : y ≤ bx.getD (bisect_right bx lo) 0 := by simpa using hy2
          rw [interpAt_eq_interpSeg]
          rw [interpSeg_expand_left
            (bx.getD (bisect_right bx lo - 1) 0, bb.getD (bisect_right bx lo - 1) 0)
            (bx.getD (bisect_right bx lo) 0, bb.getD (bisect_right bx lo) 0)
            lo
            (by
              have := pairwise_lt_getD bx hsort (bisect_right bx lo - 1)
                (bisect_right bx lo) (by omega) (by omega)
              simpa using ne_of_lt this)
            (by simpa using ne_of_lt hloR) y]
          have hstep : bisect_right bx lo - 1 + 1 = bisect_right bx lo := by omega
          have hloc := chainInterp_zip_locate bx bb hsort hleny
            (bisect_right bx lo - 1) y (by omega)
            (le_trans hloL hy1')
            (by rw [hstep]; exact hy2')
          rw [hstep] at hloc
          exact hloc.symm
      · have hj1 : 1 ≤ j := by omega
        by_cases hjm : j + 1 ≤ bisect_left bx hi - bisect_right bx lo
        · have hrj : (restrictPoints bx bb lo hi).getD j (0, 0)
              = (bx.getD (bisect_right bx lo + (j - 1)) 0,
                 bb.getD (bisect_right bx lo + (j - 1)) 0) := by
            rw [show j = (j - 1) + 1 by omega]
            exact hmid (j - 1) (by omega)
          have hrj1 : (restrictPoints bx bb lo hi).getD (j + 1) (0, 0)
              = (bx.getD (bisect_right bx lo + j) 0,
                 bb.getD (bisect_right bx lo + j) 0) := hmid j (by omega)
          rw [hrj] at hy1
          rw [hrj1] at hy2
          rw [hrj, hrj1]
          have hstep : bisect_right bx lo + (j - 1) + 1 = bisect_right bx lo + j := by
            omega
          have hloc := chainInterp_zip_locate bx bb hsort hleny
            (bisect_right bx lo + (j - 1)) y (by omega)
            (by simpa using hy1)
            (by rw [hstep]; simpa using hy2)
          rw [hstep] at hloc
          exact hloc.symm
        · have hjm2 : j = bisect_left bx hi - bisect_right bx lo := by omega
          have hidx : bisect_right bx lo + (j - 1) = bisect_left bx hi - 1 := by omega
          have hrj : (restrictPoints bx bb lo hi).getD j (0, 0)
              = (bx.getD (bisect_left bx hi - 1) 0,
                 bb.getD (bisect_left bx hi - 1) 0) := by
            rw [show j = (j - 1) + 1 by omega]
            rw [hmid (j - 1) (by omega), hidx]
          have hrj1 : (restrictPoints bx bb lo hi).getD (j + 1) (0, 0)
              = (hi, interpAt bx bb (bisect_left bx hi) hi) := by
            rw [hjm2]
            exact hlast
          rw [hrj] at hy1
          rw [hrj1] at hy2
          have hy2' : y ≤ hi := by simpa using hy2
          rw [hrj, hrj1, interpAt_eq_interpSeg]
          rw [interpSeg_expand_right
            (bx.getD (bisect_left bx hi - 1) 0, bb.getD (bisect_left bx hi - 1) 0)
            (bx.getD (bisect_left bx hi) 0, bb.getD (bisect_left bx hi) 0)
            hi (by simpa using ne_of_lt hhiL) y]
          have hstep : bisect_left bx hi - 1 + 1 = bisect_left bx hi := by omega
          have hloc := chainInterp_zip_locate bx bb hsort hleny
            (bisect_left bx hi - 1) y (by omega)
            (by simpa using hy1)
            (by rw [hstep]; exact le_trans hy2' hhiR)
          rw [hstep] at hloc
          exact hloc.symm
    · rw [headDP_eq_getD, h0]
      exact hx1
    · rw [getLastDP_eq_getD, hL,
        show bisect_left bx hi - bisect_right bx lo + 2 - 1
          = bisect_left bx hi - bisect_right bx lo + 1 by omega, hlast]
      exact hx2

/-! #### Final ingredients for the under-estimation claim -/

/-- Lowering the first y-value (to `0`, when it was `≥ 0`) lowers the
interpolation pointwise. -/
theorem adjustJump_le (problem : Problem) (lo : ℚ) (pts : List (ℚ × ℚ))
    (hs : List.Pairwise (fun u v => u.1 < v.1) pts)
    (hpos : problem = Problem.discNetworkFlow ∧ lo ≤ 0 → 0 ≤ (pts.headD (0, 0)).2)
    (x : ℚ) (hx : (pts.headD (0, 0)).1 ≤ x) :
    chainInterp (adjustJump problem lo pts) x ≤ chainInterp pts x := by
  cases pts with
  | nil => exact le_refl _
  | cons p t =>
    simp only [adjustJump]
    by_cases hcond : problem = Problem.discNetworkFlow ∧ lo ≤ 0
    · rw [if_pos hcond]
      have hp2 : 0 ≤ p.2 := hpos hcond
      cases t with
      | nil => simpa [chainInterp] using hp2
      | cons q t2 =>
        have hpq : p.1 < q.1 := List.rel_of_pairwise_cons hs (by simp)
        by_cases hxq : x ≤ q.1
        · rw [show chainInterp ((p.1, 0) :: q :: t2) x = interpSeg (p.1, 0) q x from by
            rw [chainInterp, if_pos hxq]]
          rw [show chainInterp (p :: q :: t2) x = interpSeg p q x from by
            rw [chainInterp, if_pos hxq]]
          rw [interpSeg_eq_right (p.1, 0) q (by simpa using ne_of_lt hpq),
            interpSeg_eq_right p q (ne_of_lt hpq)]
          apply line_anti_of_slope_le _ _ _ _ _ ?_ hxq
          show slope p q ≤ slope (p.1, 0) q
          rw [show slope (p.1, 0) q = (q.2 - 0) / (q.1 - p.1) from rfl, slope]
          rw [div_le_div_iff_of_pos_right (by linarith)]
          linarith
        · rw [show chainInterp ((p.1, 0) :: q :: t2) x = chainInterp (q :: t2) x from by
            rw [chainInterp, if_neg hxq]]
          rw [show chainInterp (p :: q :: t2) x = chainInterp (q :: t2) x from by
            rw [chainInterp, if_neg hxq]]
    · rw [if_neg hcond]

/-- The problem tag only matters left of the first breakpoint. -/
theorem getPLFvalue_tag_eq (bx bb : List ℚ) (x : ℚ) (problem : Problem)
    (hx : bx.headD 0 < x) :
    getPLFvalue bx bb x problem = getPLFvalue bx bb x Problem.knapsack := by
  rw [getPLFvalue, getPLFvalue, if_neg (not_le.mpr hx), if_neg (not_le.mpr hx)]

theorem getPLFvalue_nondisc_eq (bx bb : List ℚ) (x : ℚ) (problem : Problem)
    (hp : problem ≠ Problem.discNetworkFlow) :
    getPLFvalue bx bb x problem = getPLFvalue bx bb x Problem.knapsack := by
  rw [getPLFvalue, getPLFvalue]
  by_cases hx : x ≤ bx.headD 0
  · rw [if_pos hx, if_pos hx, if_neg hp,
      if_neg (by simp : ¬ (Problem.knapsack = Problem.discNetworkFlow))]
  · rw [if_neg hx, if_neg hx]

/-- Evaluation exactly at a breakpoint other than the first returns its
y-value, under any tag. -/
theorem getPLFvalue_at_breakpoint (bx bb : List ℚ) (problem : Problem)
    (hsort : List.Pairwise (· < ·) bx) (hlen : 2 ≤ bx.length)
    (hleny : bb.length = bx.length) (k : ℕ) (h1 : 1 ≤ k) (h2 : k < bx.length) :
    getPLFvalue bx bb (bx.getD k 0) problem = bb.getD k 0 := by
  have hhead : bx.headD 0 < bx.getD k 0 := by
    rw [headD_eq_getD]
    exact pairwise_lt_getD bx hsort 0 k (by omega) h2
  rw [getPLFvalue, if_neg (not_le.mpr hhead)]
  by_cases hk : k = bx.length - 1
  · rw [if_pos (by rw [getLastD_eq_getD, hk])]
    rw [getLastD_eq_getD bb, hleny, hk]
  · have hklt : k < bx.length - 1 := by omega
    have hlast : ¬ (bx.getLastD 0 ≤ bx.getD k 0) := by
      rw [getLastD_eq_getD]
      exact not_le.mpr (pairwise_lt_getD bx hsort k (bx.length - 1) hklt (by omega))
    rw [if_neg hlast]
    have hbr : bisect_right bx (bx.getD k 0) = k + 1 := by
      apply bisect_right_eq_of bx _ (k + 1) (by omega)
      · intro j hj
        exact pairwise_lt_getD_le bx hsort j k (by omega) h2
      · intro hlt
        exact pairwise_lt_getD bx hsort k (k + 1) (by omega) hlt
    rw [hbr, interpAt]
    simp

/-- Every restricted point strictly right of the left edge carries the plain
PLF value at its x-coordinate. -/
theorem restrictPoints_mem_value (bx bb : List ℚ) (lo hi : ℚ)
    (hsort : List.Pairwise (· < ·) bx) (hlen : 2 ≤ bx.length)
    (hleny : bb.length = bx.length)
    (hlo : bx.headD 0 ≤ lo) (hlohi : lo < hi) (hhi : hi ≤ bx.getLastD 0)
    (p : ℚ × ℚ) (hp : p ∈ restrictPoints bx bb lo hi) (hplo : lo < p.1) :
    p.2 = getPLFvalue bx bb p.1 Problem.knapsack := by
  have hne : bx ≠ [] := by intro hcon; rw [hcon] at hlen; simp at hlen
  obtain ⟨i, hi2, hpi⟩ := List.mem_iff_getElem.mp hp
  have hpi2 : p = (restrictPoints bx bb lo hi).getD i (0, 0) := by
    rw [getDP_eq_getElem _ i hi2, hpi]
  by_cases hfull : lo = bx.headD 0 ∧ hi = bx.getLastD 0
  · rw [restrictPoints, if_pos hfull] at hpi2
    have hzlen : (bx.zip bb).length = bx.length := by
      rw [List.length_zip, hleny, min_self]
    have hi3 : i < bx.length := by
      rw [restrictPoints, if_pos hfull] at hi2
      omega
    rw [zip_getD bx bb i (by omega) (by omega)] at hpi2
    have hi1 : 1 ≤ i := by
      by_contra hcon
      have hi0 : i = 0 := by omega
      rw [hi0] at hpi2
      rw [hpi2] at hplo
      simp only at hplo
      rw [← headD_eq_getD] at hplo
      exact absurd (lt_of_le_of_lt hlo hplo) (lt_irrefl _)
    rw [hpi2]
    show bb.getD i 0 = getPLFvalue bx bb (bx.getD i 0) Problem.knapsack
    exact (getPLFvalue_at_breakpoint bx bb Problem.knapsack hsort hlen hleny i
      hi1 hi3).symm
  · have hprlt : bisect_left bx hi < bx.length := bisect_left_lt_length bx hi hne hhi
    have hpl1 : 1 ≤ bisect_right bx lo := by
      obtain ⟨u, t, hut⟩ := List.exists_cons_of_ne_nil hne
      subst hut
      exact bisect_right_pos u t lo (by simpa using hlo)
    obtain ⟨hL, h0, hmid, hlast⟩ := restrictPoints_struct bx bb lo hi hlen hleny
      hlohi (le_of_lt hprlt) hfull
    rw [hL] at hi2
    by_cases hi0 : i = 0
    · exfalso
      rw [hi0, h0] at hpi2
      rw [hpi2] at hplo
      exact lt_irrefl lo hplo
    · by_cases him : i ≤ bisect_left bx hi - bisect_right bx lo
      · have hmk := hmid (i - 1) (by omega)
        rw [show i = (i - 1) + 1 by omega, hmk] at hpi2
        rw [hpi2]
        show bb.getD (bisect_right bx lo + (i - 1)) 0
          = getPLFvalue bx bb (bx.getD (bisect_right bx lo + (i - 1)) 0) Problem.knapsack
        exact (getPLFvalue_at_breakpoint bx bb Problem.knapsack hsort hlen hleny
          (bisect_right bx lo + (i - 1)) (by omega) (by omega)).symm
      · have hieq : i = bisect_left bx hi - bisect_right bx lo + 1 := by omega
        rw [hieq, hlast] at hpi2
        rw [hpi2]
        show interpAt bx bb (bisect_left bx hi) hi
          = getPLFvalue bx bb hi Problem.knapsack
        exact interp_right_eq_plain bx bb hi hsort hlen hleny
          (lt_of_le_of_lt hlo hlohi) hhi

theorem zip_map_fst_snd_p (l : List (ℚ × ℚ)) :
    (l.map Prod.fst).zip (l.map Prod.snd) = l := by
  induction l with
  | nil => rfl
  | cons p t ih => simp [ih]

theorem head?_getD0 (l : List (ℚ × ℚ)) (p : ℚ × ℚ) (h : l.head? = some p) :
    l.getD 0 (0, 0) = p := by
  cases l with
  | nil => simp at h
  | cons q t =>
    simp only [List.head?_cons, Option.some.injEq] at h
    subst h
    rfl

theorem adjustJump_mem (problem : Problem) (lo : ℚ) (pts : List (ℚ × ℚ))
    (p : ℚ × ℚ) (hp : p ∈ adjustJump problem lo pts) :
    p ∈ pts ∨ ∃ q t, pts = q :: t ∧ p = (q.1, 0) := by
  cases pts with
  | nil => simp [adjustJump] at hp
  | cons q t =>
    simp only [adjustJump] at hp
    by_cases hcond : problem = Problem.discNetworkFlow ∧ lo ≤ 0
    · rw [if_pos hcond] at hp
      rcases List.mem_cons.mp hp with h | h
      · exact Or.inr ⟨q, t, rfl, h⟩
      · exact Or.inl (List.mem_cons_of_mem q h)
    · rw [if_neg hcond] at hp
      exact Or.inl hp

theorem envelopePoints_head (bx bb : List ℚ) (lo hi : ℚ) (problem : Problem)
    (hsort : List.Pairwise (· < ·) bx)
    (hlen : 2 ≤ bx.length) (hleny : bb.length = bx.length)
    (hlo : bx.headD 0 ≤ lo) (hlohi : lo < hi) (hhi : hi ≤ bx.getLastD 0) :
    (envelopePoints bx bb lo hi problem).head?
      = some (lo, if problem = Problem.discNetworkFlow ∧ lo ≤ 0 then 0
                  else getPLFvalue bx bb lo Problem.knapsack) := by
  rw [envelopePoints, adjustJump_head problem lo _ _
    (restrictPoints_head bx bb lo hi hsort hlen hleny hlo hlohi hhi)]
  by_cases hcond : problem = Problem.discNetworkFlow ∧ lo ≤ 0
  · rw [if_pos hcond, if_pos hcond]
  · rw [if_neg hcond, if_neg hcond]

theorem envelopePoints_sorted (bx bb : List ℚ) (lo hi : ℚ) (problem : Problem)
    (hsort : List.Pairwise (· < ·) bx)
    (hlen : 2 ≤ bx.length) (hleny : bb.length = bx.length)
    (hlo : bx.headD 0 ≤ lo) (hlohi : lo < hi) (hhi : hi ≤ bx.getLastD 0) :
    List.Pairwise (fun u v => u.1 < v.1) (envelopePoints bx bb lo hi problem) := by
  have hr := restrictPoints_sorted bx bb lo hi hsort hlen hleny hlo hlohi hhi
  rw [envelopePoints]
  cases hrp : restrictPoints bx bb lo hi with
  | nil => simp [adjustJump]
  | cons p t =>
    rw [hrp] at hr
    simp only [adjustJump]
    split
    · exact List.pairwise_cons.mpr
        ⟨fun v hv => by simpa using List.rel_of_pairwise_cons hr hv, hr.tail⟩
    · exact hr

/-- Claim C1 (amended): for every PL function given by strictly-x-increasing
breakpoints, every interval `[a, b]` inside its domain, and every problem
tag, the envelope returned by `getEnvelope` is a pointwise under-estimator
of the PL function as computed by `getPLFvalue` with the same tag, with
equality at every breakpoint of the envelope (the jump-adjusted value at
the left edge when the tag is discontinuous and `a ≤ 0`).  Two hypotheses
are forced by counterexamples and added: under the discontinuous tag,
(i) if `a ≤ 0` the plain PLF value at `a` must be non-negative (the
adjustment pulls the left edge up to `0` otherwise, breaking
under-estimation), and (ii) if `a > 0` then `x₀ < a` (at `a = x₀ > 0` the
evaluator jumps to `0` but the envelope does not adjust). -/
theorem getEnvelope_underestimates (bx bb : List ℚ) (lo hi : ℚ)
    (problem : Problem)
    (hsort : List.Pairwise (· < ·) bx)
    (hlen : 2 ≤ bx.length)
    (hleny : bb.length = bx.length)
    (hlo : bx.headD 0 ≤ lo) (hlohi : lo < hi) (hhi : hi ≤ bx.getLastD 0)
    (hjump1 : problem = Problem.discNetworkFlow → lo ≤ 0 →
        0 ≤ getPLFvalue bx bb lo Problem.knapsack)
    (hjump2 : problem = Problem.discNetworkFlow → 0 < lo → bx.headD 0 < lo) :
    (∀ x, lo ≤ x → x ≤ hi →
        chainInterp ((getEnvelope bx bb lo hi problem).1.zip
            (getEnvelope bx bb lo hi problem).2) x
          ≤ getPLFvalue bx bb x problem)
    ∧ (∀ k, k < (getEnvelope bx bb lo hi problem).1.length →
        chainInterp ((getEnvelope bx bb lo hi problem).1.zip
            (getEnvelope bx bb lo hi problem).2)
            ((getEnvelope bx bb lo hi problem).1.getD k 0)
          = (getEnvelope bx bb lo hi problem).2.getD k 0)
    ∧ (∀ k, 0 < k → k < (getEnvelope bx bb lo hi problem).1.length →
        (getEnvelope bx bb lo hi problem).2.getD k 0
          = getPLFvalue bx bb ((getEnvelope bx bb lo hi problem).1.getD k 0) problem)
    ∧ ((getEnvelope bx bb lo hi problem).2.getD 0 0
        = if problem = Problem.discNetworkFlow ∧ lo ≤ 0 then 0
          else getPLFvalue bx bb lo problem) := by
  have hepss := envelopePoints_sorted bx bb lo hi problem hsort hlen hleny hlo hlohi hhi
  have hps := restrictPoints_sorted bx bb lo hi hsort hlen hleny hlo hlohi hhi
  have hhead := envelopePoints_head bx bb lo hi problem hsort hlen hleny hlo hlohi hhi
  have hrhead := restrictPoints_head bx bb lo hi hsort hlen hleny hlo hlohi hhi
  have hhull_sorted : List.Pairwise (fun u v => u.1 < v.1)
      (lowerHull (envelopePoints bx bb lo hi problem)) :=
    hepss.sublist (lowerHull_sublist _)
  obtain ⟨p0, t0, hpt⟩ : ∃ p t, envelopePoints bx bb lo hi problem = p :: t := by
    cases hc : envelopePoints bx bb lo hi problem with
    | nil => rw [hc] at hhead; simp at hhead
    | cons p t => exact ⟨p, t, rfl⟩
  have hp0 : p0 = (lo, if problem = Problem.discNetworkFlow ∧ lo ≤ 0 then 0
      else getPLFvalue bx bb lo Problem.knapsack) := by
    rw [hpt] at hhead
    simpa using hhead
  have hhull_head : (lowerHull (envelopePoints bx bb lo hi problem)).head?
      = some p0 := by
    rw [hpt]
    exact lowerHull_head p0 t0
  have hhull_getD0 : (lowerHull (envelopePoints bx bb lo hi problem)).getD 0 (0, 0)
      = p0 := head?_getD0 _ p0 hhull_head
  have hhull_pos : 0 < (lowerHull (envelopePoints bx bb lo hi problem)).length := by
    cases hl : lowerHull (envelopePoints bx bb lo hi problem) with
    | nil => rw [hl] at hhull_head; simp at hhull_head
    | cons a b => simp
  have hzip_eq : ((getEnvelope bx bb lo hi problem).1.zip
      (getEnvelope bx bb lo hi problem).2)
      = lowerHull (envelopePoints bx bb lo hi problem) := by
    simp only [getEnvelope]
    exact zip_map_fst_snd_p _
  have hknap : ∀ x, lo ≤ x → x ≤ hi →
      chainInterp (lowerHull (envelopePoints bx bb lo hi problem)) x
        ≤ getPLFvalue bx bb x Problem.knapsack := by
    intro x hx1 hx2
    have hstep1 : chainInterp (lowerHull (envelopePoints bx bb lo hi problem)) x
        ≤ chainInterp (envelopePoints bx bb lo hi problem) x := by
      apply lowerHull_le_chainInterp _ hepss x
      rw [hpt]
      rw [show ((p0 :: t0).headD (0, 0)) = p0 from rfl, hp0]
      exact hx1
    have hstep2 : chainInterp (envelopePoints bx bb lo hi problem) x
        ≤ chainInterp (restrictPoints bx bb lo hi) x := by
      refine adjustJump_le problem lo _ hps ?_ x ?_
      · intro hcond
        rw [headDP_eq_getD, head?_getD0 _ _ hrhead]
        exact hjump1 hcond.1 hcond.2
      · rw [headDP_eq_getD, head?_getD0 _ _ hrhead]
        exact hx1
    have hstep3 : chainInterp (restrictPoints bx bb lo hi) x
        = chainInterp (bx.zip bb) x :=
      restrictPoints_chainInterp_eq bx bb lo hi hsort hlen hleny hlo hlohi hhi
        x hx1 hx2
    have hstep4 : chainInterp (bx.zip bb) x = getPLFvalue bx bb x Problem.knapsack :=
      (getPLFvalue_eq_chainInterp bx bb hsort hlen hleny x
        (le_trans hlo hx1)).symm
    calc chainInterp (lowerHull (envelopePoints bx bb lo hi problem)) x
        ≤ chainInterp (envelopePoints bx bb lo hi problem) x := hstep1
      _ ≤ chainInterp (restrictPoints bx bb lo hi) x := hstep2
      _ = chainInterp (bx.zip bb) x := hstep3
      _ = getPLFvalue bx bb x Problem.knapsack := hstep4
  refine ⟨?_, ?_, ?_, ?_⟩
  · intro x hx1 hx2
    rw [hzip_eq]
    by_cases hdisc : problem = Problem.discNetworkFlow
    · by_cases hxh : bx.headD 0 < x
      · rw [getPLFvalue_tag_eq bx bb x problem hxh]
        exact hknap x hx1 hx2
      · have hlo0 : lo ≤ 0 := by
          by_contra hcon
          exact hxh (lt_of_lt_of_le (hjump2 hdisc (lt_of_not_le hcon)) hx1)
        have hxlo : x = lo := le_antisymm (le_trans (le_of_not_lt hxh) hlo) hx1
        have hchain : chainInterp (lowerHull (envelopePoints bx bb lo hi problem)) x
            = 0 := by
          rw [hxlo]
          have hbp := chainInterp_breakpoint _ hhull_sorted 0 hhull_pos
          rw [hhull_getD0, hp0, if_pos ⟨hdisc, hlo0⟩] at hbp
          exact hbp
        rw [hchain, getPLFvalue, if_pos (le_of_not_lt hxh), if_pos hdisc]
    · rw [getPLFvalue_nondisc_eq bx bb x problem hdisc]
      exact hknap x hx1 hx2
  · intro k hk
    rw [hzip_eq]
    simp only [getEnvelope, List.length_map] at hk ⊢
    rw [getD_map_fst _ k hk, getD_map_snd _ k hk]
    exact chainInterp_breakpoint _ hhull_sorted k hk
  · intro k hk0 hk
    simp only [getEnvelope, List.length_map] at hk ⊢
    rw [getD_map_fst _ k hk, getD_map_snd _ k hk]
    have hmem : (lowerHull (envelopePoints bx bb lo hi problem)).getD k (0, 0)
        ∈ envelopePoints bx bb lo hi problem := by
      rw [getDP_eq_getElem _ k hk]
      exact (lowerHull_sublist _).subset (List.getElem_mem hk)
    have hgt : lo < ((lowerHull (envelopePoints bx bb lo hi problem)).getD k (0, 0)).1 := by
      have := pairwiseP_lt_getD _ hhull_sorted 0 k hk0 hk
      rw [hhull_getD0, hp0] at this
      simpa using this
    have hval : ((lowerHull (envelopePoints bx bb lo hi problem)).getD k (0, 0)).2
        = getPLFvalue bx bb
            ((lowerHull (envelopePoints bx bb lo hi problem)).getD k (0, 0)).1
            Problem.knapsack := by
      rcases adjustJump_mem problem lo (restrictPoints bx bb lo hi) _ hmem
        with hmem2 | ⟨q, t, hqt, hpq⟩
      · exact restrictPoints_mem_value bx bb lo hi hsort hlen hleny hlo hlohi hhi
          _ hmem2 hgt
      · exfalso
        have hq0 : q = (lo, getPLFvalue bx bb lo Problem.knapsack) := by
          rw [hqt] at hrhead
          simpa using hrhead
        rw [hpq, hq0] at hgt
        simp at hgt
    rw [hval]
    exact (getPLFvalue_tag_eq bx bb _ problem (lt_of_le_of_lt hlo hgt)).symm
  · simp only [getEnvelope]
    rw [getD_map_snd _ 0 hhull_pos, hhull_getD0, hp0]
    show (if problem = Problem.discNetworkFlow ∧ lo ≤ 0 then 0
        else getPLFvalue bx bb lo Problem.knapsack)
      = if problem = Problem.discNetworkFlow ∧ lo ≤ 0 then 0
        else getPLFvalue bx bb lo problem
    by_cases hcond : problem = Problem.discNetworkFlow ∧ lo ≤ 0
    · rw [if_pos hcond, if_pos hcond]
    · rw [if_neg hcond, if_neg hcond]
      by_cases hdisc : problem = Problem.discNetworkFlow
      · have hlo0 : 0 < lo := by
          by_contra hcon
          exact hcond ⟨hdisc, le_of_not_lt hcon⟩
        exact (getPLFvalue_tag_eq bx bb lo problem (hjump2 hdisc hlo0)).symm
      · exact (getPLFvalue_nondisc_eq bx bb lo problem hdisc).symm

/-- Counterexample to claim C1 as stated: for the PLF with breakpoints
`(0, -10), (1, 0)` under the discontinuous tag on its full domain `[0, 1]`,
the jump adjustment raises the left envelope value to `0`, and at
`x = 1/2` the envelope evaluates to `0` while the PLF value is `-5`: the
envelope does not under-estimate the function. -/
theorem getEnvelope_not_underestimator :
    (0 : ℚ) ≤ 1 / 2 ∧ (1 / 2 : ℚ) ≤ 1 ∧
    getPLFvalue [0, 1] [-10, 0] (1 / 2) Problem.discNetworkFlow
      < chainInterp
          ((getEnvelope [0, 1] [-10, 0] 0 1 Problem.discNetworkFlow).1.zip
            (getEnvelope [0, 1] [-10, 0] 0 1 Problem.discNetworkFlow).2) (1 / 2) := by
  refine ⟨by norm_num, by norm_num, ?_⟩
  have henv : getEnvelope [0, 1] [-10, 0] 0 1 Problem.discNetworkFlow
      = ([0, 1], [0, 0]) := by
    norm_num [getEnvelope, envelopePoints, restrictPoints, adjustJump, lowerHull,
      hullStep]
  rw [henv]
  norm_num [getPLFvalue, bisect_right, interpAt, chainInterp, interpSeg, slope]

theorem getEnvelope_underestimates_witness :
    (List.Pairwise (· < ·) ([(-1 : ℚ), 0, 1] : List ℚ)
      ∧ 2 ≤ ([(-1 : ℚ), 0, 1] : List ℚ).length
      ∧ ([(1 : ℚ), 0, 1] : List ℚ).length = ([(-1 : ℚ), 0, 1] : List ℚ).length
      ∧ ([(-1 : ℚ), 0, 1] : List ℚ).headD 0 ≤ (-1 : ℚ)
      ∧ (-1 : ℚ) < 1 ∧ (1 : ℚ) ≤ ([(-1 : ℚ), 0, 1] : List ℚ).getLastD 0) ∧
    (∀ x, (-1 : ℚ) ≤ x → x ≤ 1 →
        chainInterp ((getEnvelope [-1, 0, 1] [1, 0, 1] (-1) 1 Problem.knapsack).1.zip
            (getEnvelope [-1, 0, 1] [1, 0, 1] (-1) 1 Problem.knapsack).2) x
          ≤ getPLFvalue [-1, 0, 1] [1, 0, 1] x Problem.knapsack) := by
  refine ⟨⟨by norm_num, by norm_num, by norm_num, by norm_num, by norm_num,
    by norm_num⟩, ?_⟩
  exact (getEnvelope_underestimates [-1, 0, 1] [1, 0, 1] (-1) 1 Problem.knapsack
    (by norm_num) (by norm_num) (by norm_num) (by norm_num) (by norm_num)
    (by norm_num) (by intro h; cases h) (by intro h; cases h)).1

/-! ### Claim C6: child envelope assembly and frame

`branch_and_bound` passes per-side shallow copies of the parent's outer
envelope lists (`env_breakpoints_x.copy()`, `sBB_functions.py` line 196) to
`solve_node`, which reassigns only the entry at `branch_index`:
`solve_node_env` models lines 260-268 (parent envelope and narrowed
interval), 271-273 (refined envelope) and 320-326 (assembly), with the
element reassignment on the copied outer list rendered as `List.set`. -/

inductive Side
  | left
  | right
  deriving DecidableEq, Repr

/-- `interval = [lower_x[pos-1], branch_point]` for the left child and
`[branch_point, lower_x[pos]]` for the right one (lines 265-268). -/
def node_interval (side : Side) (lower_x : List ℚ) (pos : ℕ)
    (branch_point : ℚ) : ℚ × ℚ :=
  match side with
  | Side.left => (lower_x.getD (pos - 1) 0, branch_point)
  | Side.right => (branch_point, lower_x.getD pos 0)

/-- The child's envelope lists produced by `solve_node`: `n_bx`, `n_bb` are
`PLFs_breakpoints_x[branch_index]` and `PLFs_breakpoints_y[branch_index]`. -/
def solve_node_env (side : Side) (branch_index : ℕ) (branch_point : ℚ)
    (n_bx n_bb : List ℚ) (pos : ℕ)
    (env_breakpoints_x env_breakpoints_y : List (List ℚ))
    (problem : Problem) : List (List ℚ) × List (List ℚ) :=
  let lower_x := env_breakpoints_x.getD branch_index []
  let lower_y := env_breakpoints_y.getD branch_index []
  let interval := node_interval side lower_x pos branch_point
  let new_lower := getEnvelope n_bx n_bb interval.1 interval.2 problem
  match side with
  | Side.left =>
      (env_breakpoints_x.set branch_index (lower_x.take (pos - 1) ++ new_lower.1),
       env_breakpoints_y.set branch_index (lower_y.take (pos - 1) ++ new_lower.2))
  | Side.right =>
      (env_breakpoints_x.set branch_index (new_lower.1 ++ lower_x.drop (pos + 1)),
       env_breakpoints_y.set branch_index (new_lower.2 ++ lower_y.drop (pos + 1)))

theorem getD_set_ne (l : List (List ℚ)) (i j : ℕ) (a : List ℚ) (h : i ≠ j) :
    (l.set i a).getD j [] = l.getD j [] := by
  rw [List.getD_eq_getElem?_getD, List.getD_eq_getElem?_getD,
    List.getElem?_set_ne h]

theorem getD_set_self (l : List (List ℚ)) (i : ℕ) (a : List ℚ)
    (h : i < l.length) :
    (l.set i a).getD i [] = a := by
  rw [List.getD_eq_getElem?_getD, List.getElem?_set_self h]
  rfl

/-- Claim C6: each child's envelope list agrees with the parent's at every
index other than the branched one; at the branched index the left child
holds `parent[0:pos-1] ++ refined` and the right child holds
`refined ++ parent[pos+1:]`, where `refined` is `getEnvelope` of the
branched variable's PLF over the narrowed interval. -/
theorem solve_node_envelope_frame
    (branch_index : ℕ) (branch_point : ℚ) (n_bx n_bb : List ℚ) (pos : ℕ)
    (env_x env_y : List (List ℚ)) (problem : Problem)
    (hx : branch_index < env_x.length) (hy : branch_index < env_y.length) :
    (∀ side j, j ≠ branch_index →
        (solve_node_env side branch_index branch_point n_bx n_bb pos
            env_x env_y problem).1.getD j [] = env_x.getD j []
        ∧ (solve_node_env side branch_index branch_point n_bx n_bb pos
            env_x env_y problem).2.getD j [] = env_y.getD j [])
    ∧ ((solve_node_env Side.left branch_index branch_point n_bx n_bb pos
          env_x env_y problem).1.getD branch_index []
        = (env_x.getD branch_index []).take (pos - 1)
          ++ (getEnvelope n_bx n_bb
                ((env_x.getD branch_index []).getD (pos - 1) 0) branch_point
                problem).1
      ∧ (solve_node_env Side.left branch_index branch_point n_bx n_bb pos
          env_x env_y problem).2.getD branch_index []
        = (env_y.getD branch_index []).take (pos - 1)
          ++ (getEnvelope n_bx n_bb
                ((env_x.getD branch_index []).getD (pos - 1) 0) branch_point
                problem).2)
    ∧ ((solve_node_env Side.right branch_index branch_point n_bx n_bb pos
          env_x env_y problem).1.getD branch_index []
        = (getEnvelope n_bx n_bb branch_point
              ((env_x.getD branch_index []).getD pos 0) problem).1
          ++ (env_x.getD branch_index []).drop (pos + 1)
      ∧ (solve_node_env Side.right branch_index branch_point n_bx n_bb pos
          env_x env_y problem).2.getD branch_index []
        = (getEnvelope n_bx n_bb branch_point
              ((env_x.getD branch_index []).getD pos 0) problem).2
          ++ (env_y.getD branch_index []).drop (pos + 1)) := by
  refine ⟨?_, ⟨?_, ?_⟩, ⟨?_, ?_⟩⟩
  · intro side j hj
    cases side
    · exact ⟨getD_set_ne _ _ _ _ (Ne.symm hj), getD_set_ne _ _ _ _ (Ne.symm hj)⟩
    · exact ⟨getD_set_ne _ _ _ _ (Ne.symm hj), getD_set_ne _ _ _ _ (Ne.symm hj)⟩
  · exact getD_set_self _ _ _ hx
  · exact getD_set_self _ _ _ hy
  · exact getD_set_self _ _ _ hx
  · exact getD_set_self _ _ _ hy

theorem solve_node_envelope_frame_witness :
    ((0 : ℕ) < ([[(-1 : ℚ), 0, 1]] : List (List ℚ)).length) ∧
    (solve_node_env Side.left 0 0 [-1, 0, 1] [1, 0, 1] 2 [[-1, 0, 1]]
        [[1, 0, 1]] Problem.knapsack).1.getD 0 []
      = (([[(-1 : ℚ), 0, 1]] : List (List ℚ)).getD 0 []).take (2 - 1)
        ++ (getEnvelope [-1, 0, 1] [1, 0, 1]
              ((([[(-1 : ℚ), 0, 1]] : List (List ℚ)).getD 0 []).getD (2 - 1) 0) 0
              Problem.knapsack).1 :=
  ⟨by norm_num,
    (solve_node_envelope_frame 0 0 [-1, 0, 1] [1, 0, 1] 2 [[-1, 0, 1]]
      [[1, 0, 1]] Problem.knapsack (by norm_num) (by norm_num)).2.1.1⟩

/-! ### Claims C7 and C8: bookkeeping of one main-loop iteration

`sBB_main.py` lines 191-261: after `branch_and_bound` returns the two
solved children, the loop updates `global_ub` and `incumbent`
(lines 217-227), pops the parent (line 230), inserts each child whose LP
bound beats `global_ub` at its `bisect.bisect` position (lines 237-251),
and truncates the sorted frontier at `bisect.bisect_left(nodes_lb,
global_ub)` (lines 253-259).  The LP results of the two children enter as
data (`ChildResult`); the PLF re-evaluation of line 330 is `plfValues`. -/

/-- The LP outcome of one child node: `model.objval` and the full variable
vector `model.x` (x-part first, then the epigraph variables). -/
structure ChildResult where
  objval : ℚ
  xs : List ℚ
  deriving Repr

/-- The loop state tracked by claims C7 and C8. -/
structure BBState where
  nodes_lb : List ℚ
  global_ub : ℚ
  incumbent : List ℚ
  node_count : ℕ
  deriving Repr

/-- `plf_values = [getPLFvalue(..., m.x[i], problem) for i in range(0, n)]`
(`sBB_functions.py` line 330, `sBB_main.py` line 138). -/
def plfValues (n : ℕ) (bxs bbs : List (List ℚ)) (xs : List ℚ)
    (problem : Problem) : List ℚ :=
  (List.range n).map (fun i =>
    getPLFvalue (bxs.getD i []) (bbs.getD i []) (xs.getD i 0) problem)

/-- Lines 222-227: the if/elif update of `global_ub`. -/
def updated_ub (s : BBState) (ub_left ub_right : ℚ) : ℚ :=
  if ub_left < s.global_ub ∧ ub_left < ub_right then ub_left
  else if ub_right < s.global_ub then ub_right
  else s.global_ub

/-- Lines 222-227: the if/elif update of `incumbent`
(`incumbent = child_model.x[0:n]`). -/
def updated_incumbent (n : ℕ) (s : BBState) (ub_left ub_right : ℚ)
    (xsL xsR : List ℚ) : List ℚ :=
  if ub_left < s.global_ub ∧ ub_left < ub_right then xsL.take n
  else if ub_right < s.global_ub then xsR.take n
  else s.incumbent

/-- Python's `list.insert(i, a)`. -/
def insertAt (l : List ℚ) (i : ℕ) (a : ℚ) : List ℚ :=
  l.take i ++ a :: l.drop i

/-- Lines 230-251: pop the parent, then conditionally insert the left and
the right child at their `bisect.bisect` positions. -/
def frontierPreTrunc (resL resR : ChildResult) (g : ℚ) (lb : List ℚ) :
    List ℚ :=
  let lb1 := lb.drop 1
  let lb2 := if resL.objval < g
    then insertAt lb1 (bisect_right lb1 resL.objval) resL.objval else lb1
  if resR.objval < g
    then insertAt lb2 (bisect_right lb2 resR.objval) resR.objval else lb2

def newUb (n : ℕ) (bxs bbs : List (List ℚ)) (problem : Problem)
    (resL resR : ChildResult) (s : BBState) : ℚ :=
  updated_ub s (plfValues n bxs bbs resL.xs problem).sum
    (plfValues n bxs bbs resR.xs problem).sum

/-- Lines 253-259: `nodes_lb = nodes_lb[0:bisect.bisect_left(nodes_lb,
global_ub)]`. -/
def newFrontier (n : ℕ) (bxs bbs : List (List ℚ)) (problem : Problem)
    (resL resR : ChildResult) (s : BBState) : List ℚ :=
  (frontierPreTrunc resL resR (newUb n bxs bbs problem resL resR s)
      s.nodes_lb).take
    (bisect_left
      (frontierPreTrunc resL resR (newUb n bxs bbs problem resL resR s)
        s.nodes_lb)
      (newUb n bxs bbs problem resL resR s))

/-- One completed iteration of the main loop (lines 191-261). -/
def sbbStep (n : ℕ) (bxs bbs : List (List ℚ)) (problem : Problem)
    (resL resR : ChildResult) (s : BBState) : BBState :=
  BBState.mk (newFrontier n bxs bbs problem resL resR s)
    (newUb n bxs bbs problem resL resR s)
    (updated_incumbent n s (plfValues n bxs bbs resL.xs problem).sum
      (plfValues n bxs bbs resR.xs problem).sum resL.xs resR.xs)
    (s.node_count + 2)

theorem sbbStep_nodes_lb (n : ℕ) (bxs bbs : List (List ℚ))
    (problem : Problem) (resL resR : ChildResult) (s : BBState) :
    (sbbStep n bxs bbs problem resL resR s).nodes_lb
      = newFrontier n bxs bbs problem resL resR s := rfl

theorem sbbStep_global_ub (n : ℕ) (bxs bbs : List (List ℚ))
    (problem : Problem) (resL resR : ChildResult) (s : BBState) :
    (sbbStep n bxs bbs problem resL resR s).global_ub
      = newUb n bxs bbs problem resL resR s := rfl

theorem sbbStep_incumbent (n : ℕ) (bxs bbs : List (List ℚ))
    (problem : Problem) (resL resR : ChildResult) (s : BBState) :
    (sbbStep n bxs bbs problem resL resR s).incumbent
      = updated_incumbent n s (plfValues n bxs bbs resL.xs problem).sum
          (plfValues n bxs bbs resR.xs problem).sum resL.xs resR.xs := rfl

theorem updated_ub_eq_min (s : BBState) (a b : ℚ) :
    updated_ub s a b = min s.global_ub (min a b) := by
  by_cases ha : a < s.global_ub <;> by_cases hab : a < b <;>
    by_cases hb : b < s.global_ub <;>
      simp only [updated_ub, ha, hab, hb, and_true, true_and, and_false,
        false_and, if_true, if_false, min_def] <;>
      split_ifs <;> first | rfl | linarith

theorem getD_take (xs : List ℚ) (n i : ℕ) (h : i < n) :
    (xs.take n).getD i 0 = xs.getD i 0 := by
  induction xs generalizing n i with
  | nil => simp
  | cons x t ih =>
    cases n with
    | zero => omega
    | succ m =>
      cases i with
      | zero => rfl
      | succ j =>
        simp only [List.take_succ_cons, List.getD_cons_succ]
        exact ih m j (by omega)

theorem plfValues_take (n : ℕ) (bxs bbs : List (List ℚ)) (xs : List ℚ)
    (problem : Problem) :
    plfValues n bxs bbs (xs.take n) problem = plfValues n bxs bbs xs problem := by
  simp only [plfValues]
  apply List.map_congr_left
  intro i hi
  rw [List.mem_range] at hi
  rw [getD_take xs n i hi]

/-- Claim C7: the new `global_ub` is the minimum of the old one and the two
children's PLF sums, hence non-increasing; a strict decrease replaces the
incumbent by the winning child's x-part; and if the old incumbent attained
the old bound, the new incumbent attains the new one. -/
theorem global_ub_monotone_attained (n : ℕ) (bxs bbs : List (List ℚ))
    (problem : Problem) (resL resR : ChildResult) (s : BBState) :
    ((sbbStep n bxs bbs problem resL resR s).global_ub
      = min s.global_ub
          (min (plfValues n bxs bbs resL.xs problem).sum
               (plfValues n bxs bbs resR.xs problem).sum))
    ∧ (sbbStep n bxs bbs problem resL resR s).global_ub ≤ s.global_ub
    ∧ ((sbbStep n bxs bbs problem resL resR s).global_ub < s.global_ub →
        (sbbStep n bxs bbs problem resL resR s).incumbent = resL.xs.take n
        ∨ (sbbStep n bxs bbs problem resL resR s).incumbent = resR.xs.take n)
    ∧ (s.global_ub = (plfValues n bxs bbs s.incumbent problem).sum →
        (sbbStep n bxs bbs problem resL resR s).global_ub
          = (plfValues n bxs bbs
              (sbbStep n bxs bbs problem resL resR s).incumbent problem).sum) := by
  have hmin : (sbbStep n bxs bbs problem resL resR s).global_ub
      = min s.global_ub
          (min (plfValues n bxs bbs resL.xs problem).sum
               (plfValues n bxs bbs resR.xs problem).sum) := by
    rw [sbbStep_global_ub, newUb, updated_ub_eq_min]
  refine ⟨hmin, ?_, ?_, ?_⟩
  · rw [hmin]; exact min_le_left _ _
  · intro hlt
    rw [sbbStep_incumbent, updated_incumbent]
    by_cases hc1 : (plfValues n bxs bbs resL.xs problem).sum < s.global_ub
        ∧ (plfValues n bxs bbs resL.xs problem).sum
          < (plfValues n bxs bbs resR.xs problem).sum
    · rw [if_pos hc1]; exact Or.inl rfl
    · rw [if_neg hc1]
      by_cases hc2 : (plfValues n bxs bbs resR.xs problem).sum < s.global_ub
      · rw [if_pos hc2]; exact Or.inr rfl
      · exfalso
        rw [sbbStep_global_ub, newUb, updated_ub, if_neg hc1, if_neg hc2] at hlt
        exact lt_irrefl _ hlt
  · intro hatt
    rw [sbbStep_global_ub, sbbStep_incumbent, newUb, updated_ub,
      updated_incumbent]
    by_cases hc1 : (plfValues n bxs bbs resL.xs problem).sum < s.global_ub
        ∧ (plfValues n bxs bbs resL.xs problem).sum
          < (plfValues n bxs bbs resR.xs problem).sum
    · rw [if_pos hc1, if_pos hc1, plfValues_take]
    · rw [if_neg hc1, if_neg hc1]
      by_cases hc2 : (plfValues n bxs bbs resR.xs problem).sum < s.global_ub
      · rw [if_pos hc2, if_pos hc2, plfValues_take]
      · rw [if_neg hc2, if_neg hc2]; exact hatt

theorem global_ub_monotone_attained_witness :
    ((1 : ℚ) = (plfValues 1 [[-1, 0, 1]] [[1, 0, 1]] [1] Problem.knapsack).sum) ∧
    (sbbStep 1 [[-1, 0, 1]] [[1, 0, 1]] Problem.knapsack
        (ChildResult.mk (-1/2) [-1/2]) (ChildResult.mk (-1/2) [1/2])
        (BBState.mk [-1] 1 [1] 1)).global_ub
      = (plfValues 1 [[-1, 0, 1]] [[1, 0, 1]]
          (sbbStep 1 [[-1, 0, 1]] [[1, 0, 1]] Problem.knapsack
            (ChildResult.mk (-1/2) [-1/2]) (ChildResult.mk (-1/2) [1/2])
            (BBState.mk [-1] 1 [1] 1)).incumbent Problem.knapsack).sum := by
  have hval : (1 : ℚ)
      = (plfValues 1 [[-1, 0, 1]] [[1, 0, 1]] [1] Problem.knapsack).sum := by
    norm_num [plfValues, List.range_succ, getPLFvalue]
  exact ⟨hval,
    (global_ub_monotone_attained 1 [[-1, 0, 1]] [[1, 0, 1]] Problem.knapsack
      (ChildResult.mk (-1/2) [-1/2]) (ChildResult.mk (-1/2) [1/2])
      (BBState.mk [-1] 1 [1] 1)).2.2.2 hval⟩

theorem mem_insertAt (l : List ℚ) (i : ℕ) (a v : ℚ) :
    v ∈ insertAt l i a ↔ v = a ∨ v ∈ l := by
  simp only [insertAt, List.mem_append, List.mem_cons]
  constructor
  · rintro (h | h | h)
    · exact Or.inr (List.mem_of_mem_take h)
    · exact Or.inl h
    · exact Or.inr (List.mem_of_mem_drop h)
  · rintro (rfl | h)
    · exact Or.inr (Or.inl rfl)
    · rw [← List.take_append_drop i l] at h
      rcases List.mem_append.mp h with h2 | h2
      · exact Or.inl h2
      · exact Or.inr (Or.inr h2)

theorem insertAt_bisect_sorted (l : List ℚ) (a : ℚ)
    (hs : List.Pairwise (· ≤ ·) l) :
    List.Pairwise (· ≤ ·) (insertAt l (bisect_right l a) a) := by
  induction l with
  | nil => simp [insertAt, bisect_right]
  | cons x t ih =>
    rw [bisect_right]
    by_cases hax : a < x
    · rw [if_pos hax]
      rw [show insertAt (x :: t) 0 a = a :: x :: t from rfl]
      refine List.pairwise_cons.mpr ⟨?_, hs⟩
      intro v hv
      rcases List.mem_cons.mp hv with rfl | hv2
      · exact le_of_lt hax
      · exact le_trans (le_of_lt hax) (List.rel_of_pairwise_cons hs hv2)
    · rw [if_neg hax]
      rw [show insertAt (x :: t) (bisect_right t a + 1) a
          = x :: insertAt t (bisect_right t a) a from by
        simp [insertAt, List.take_succ_cons, List.drop_succ_cons]]
      refine List.pairwise_cons.mpr ⟨?_, ih hs.tail⟩
      intro v hv
      rcases (mem_insertAt t (bisect_right t a) a v).mp hv with rfl | hv2
      · exact le_of_not_lt hax
      · exact List.rel_of_pairwise_cons hs hv2

theorem mem_take_bisect_left_lt (l : List ℚ) (g v : ℚ)
    (hv : v ∈ l.take (bisect_left l g)) : v < g := by
  induction l with
  | nil => simp at hv
  | cons x t ih =>
    rw [bisect_left] at hv
    by_cases hgx : g ≤ x
    · rw [if_pos hgx] at hv; simp at hv
    · rw [if_neg hgx, List.take_succ_cons] at hv
      rcases List.mem_cons.mp hv with rfl | hv2
      · exact lt_of_not_le hgx
      · exact ih hv2

theorem sorted_headD_le (l : List ℚ) (hs : List.Pairwise (· ≤ ·) l)
    (v : ℚ) (hv : v ∈ l) : l.headD 0 ≤ v := by
  cases l with
  | nil => simp at hv
  | cons x t =>
    rcases List.mem_cons.mp hv with rfl | hv2
    · exact le_refl v
    · exact List.rel_of_pairwise_cons hs hv2

theorem frontierPreTrunc_sorted (resL resR : ChildResult) (g : ℚ)
    (lb : List ℚ) (h : List.Pairwise (· ≤ ·) lb) :
    List.Pairwise (· ≤ ·) (frontierPreTrunc resL resR g lb) := by
  have h1 : List.Pairwise (· ≤ ·) (lb.drop 1) :=
    h.sublist (List.drop_sublist 1 lb)
  simp only [frontierPreTrunc]
  split_ifs <;>
    first
      | exact h1
      | exact insertAt_bisect_sorted _ _ h1
      | exact insertAt_bisect_sorted _ _ (insertAt_bisect_sorted _ _ h1)

/-- Claim C8: one completed loop iteration keeps the frontier sorted
ascending, leaves no node with lower bound `≥ global_ub` in it, and its
front element is minimal. -/
theorem frontier_sorted_and_pruned (n : ℕ) (bxs bbs : List (List ℚ))
    (problem : Problem) (resL resR : ChildResult) (s : BBState)
    (hs : List.Pairwise (· ≤ ·) s.nodes_lb) :
    List.Pairwise (· ≤ ·) (sbbStep n bxs bbs problem resL resR s).nodes_lb
    ∧ (∀ v ∈ (sbbStep n bxs bbs problem resL resR s).nodes_lb,
        v < (sbbStep n bxs bbs problem resL resR s).global_ub)
    ∧ (∀ v ∈ (sbbStep n bxs bbs problem resL resR s).nodes_lb,
        (sbbStep n bxs bbs problem resL resR s).nodes_lb.headD 0 ≤ v) := by
  have hsorted : List.Pairwise (· ≤ ·)
      (sbbStep n bxs bbs problem resL resR s).nodes_lb := by
    rw [sbbStep_nodes_lb, newFrontier]
    exact (frontierPreTrunc_sorted _ _ _ _ hs).sublist (List.take_sublist _ _)
  refine ⟨hsorted, ?_, ?_⟩
  · intro v hv
    rw [sbbStep_nodes_lb, newFrontier] at hv
    rw [sbbStep_global_ub]
    exact mem_take_bisect_left_lt _ _ v hv
  · intro v hv
    exact sorted_headD_le _ hsorted v hv

theorem frontier_sorted_and_pruned_witness :
    List.Pairwise (· ≤ ·) (BBState.mk [0, 1] 2 [0] 1).nodes_lb ∧
    List.Pairwise (· ≤ ·)
      (sbbStep 1 [[-1, 0, 1]] [[1, 0, 1]] Problem.knapsack
        (ChildResult.mk (-1/2) [-1/2]) (ChildResult.mk (-1/4) [1/2])
        (BBState.mk [0, 1] 2 [0] 1)).nodes_lb := by
  have hpw : List.Pairwise (· ≤ ·) (BBState.mk [0, 1] 2 [0] 1).nodes_lb := by
    norm_num [List.pairwise_cons]
  exact ⟨hpw,
    (frontier_sorted_and_pruned 1 [[-1, 0, 1]] [[1, 0, 1]] Problem.knapsack
      (ChildResult.mk (-1/2) [-1/2]) (ChildResult.mk (-1/4) [1/2])
      (BBState.mk [0, 1] 2 [0] 1) hpw).1⟩

/-! ### Claims C9 and C4: the driver `spatialBB`

`sBB_main.py` lines 61-168.  The LP solves are oracles: `rootSolve` stands
for the root `m.optimize()` outcome (Gurobi status code, variable vector
`m.x`, objective), `childOracle` for the two solved children of the
selected node.  The loop condition (lines 166-168) evaluates
`len(nodes_lb) != 0` first and then
`(global_ub - nodes_lb[0]) / abs(global_ub)`, so a non-empty frontier with
`global_ub == 0` raises `ZeroDivisionError` before anything else;
`SBBResult.zeroDivisionError` records that exception, `zeroSentinel` the
infeasibility return `(0,0,0,0,0,0,0,0,0,0)` of line 130, and `finished`
the normal return (line 263) restricted to
`(node_count, global_ub, lower_bound, incumbent)`. -/

structure SolveResult where
  status : ℕ
  xs : List ℚ
  objval : ℚ
  deriving Repr

inductive SBBResult
  | zeroSentinel
  | zeroDivisionError
  | finished (node_count : ℕ) (global_ub : ℚ) (lower_bound : ℚ)
      (incumbent : List ℚ)
  deriving Repr

/-- `lower_bounds.append(breakpoints[0])` (line 67). -/
def lower_bounds (bxs : List (List ℚ)) : List ℚ :=
  bxs.map (fun l => l.headD 0)

/-- `upper_bounds.append(breakpoints[-1])` (line 68). -/
def upper_bounds (bxs : List (List ℚ)) : List ℚ :=
  bxs.map (fun l => l.getLastD 0)

/-- x-feasibility of the knapsack root LP (variable bounds of line 92 and
the constraint `np.ones(n) @ x == rhs` of line 101). -/
def feasiblePoint (n : ℕ) (bxs : List (List ℚ)) (rhs : ℚ)
    (xs : List ℚ) : Prop :=
  xs.length = n
  ∧ (∀ i, i < n → (lower_bounds bxs).getD i 0 ≤ xs.getD i 0
      ∧ xs.getD i 0 ≤ (upper_bounds bxs).getD i 0)
  ∧ xs.sum = rhs

/-- The main loop (lines 166-261) with an iteration budget: at budget 0 the
time-limit conjunct of the `while` condition fails, which Python reaches
only after evaluating the first two conjuncts. -/
def sbbLoop (fuel : ℕ) (n : ℕ) (bxs bbs : List (List ℚ))
    (problem : Problem) (epsilon : ℚ)
    (childOracle : BBState → ChildResult × ChildResult) (s : BBState) :
    SBBResult :=
  match fuel with
  | 0 =>
    if s.nodes_lb = [] then
      SBBResult.finished s.node_count s.global_ub s.global_ub s.incumbent
    else if s.global_ub = 0 then SBBResult.zeroDivisionError
    else
      SBBResult.finished s.node_count s.global_ub (s.nodes_lb.headD 0)
        s.incumbent
  | fuel + 1 =>
    if s.nodes_lb = [] then
      SBBResult.finished s.node_count s.global_ub s.global_ub s.incumbent
    else if s.global_ub = 0 then SBBResult.zeroDivisionError
    else if epsilon < (s.global_ub - s.nodes_lb.headD 0) / |s.global_ub| then
      sbbLoop fuel n bxs bbs problem epsilon childOracle
        (sbbStep n bxs bbs problem (childOracle s).1 (childOracle s).2 s)
    else
      SBBResult.finished s.node_count s.global_ub (s.nodes_lb.headD 0)
        s.incumbent

/-- `spatialBB` from `sBB_main.py`: root infeasibility check (lines
128-130), root bookkeeping (lines 136-157), then the main loop. -/
def spatialBB (fuel : ℕ) (bxs bbs : List (List ℚ)) (n : ℕ)
    (problem : Problem) (_rhs : ℚ) (epsilon : ℚ) (rootSolve : SolveResult)
    (childOracle : BBState → ChildResult × ChildResult) : SBBResult :=
  if rootSolve.status ≠ 2 then SBBResult.zeroSentinel
  else
    sbbLoop fuel n bxs bbs problem epsilon childOracle
      (BBState.mk [rootSolve.objval]
        (plfValues n bxs bbs rootSolve.xs problem).sum
        (rootSolve.xs.take n) 1)

theorem sum_le_of_pointwise (xs ub : List ℚ) (hlen : xs.length = ub.length)
    (hp : ∀ i, i < xs.length → xs.getD i 0 ≤ ub.getD i 0) :
    xs.sum ≤ ub.sum := by
  induction xs generalizing ub with
  | nil =>
    cases ub with
    | nil => simp
    | cons b u => simp at hlen
  | cons a t ih =>
    cases ub with
    | nil => simp at hlen
    | cons b u =>
      simp only [List.sum_cons]
      have h0 : a ≤ b := hp 0 (by simp)
      have ht : t.sum ≤ u.sum := by
        refine ih u (by simpa using hlen) ?_
        intro i hi
        have h := hp (i + 1) (by simpa using Nat.succ_lt_succ hi)
        simpa using h
      linarith

/-- Claim C9: a knapsack input with `Σ upper_bounds < rhs` has an
infeasible root LP, so any sound root solve reports a non-optimal status
and `spatialBB` returns the zero sentinel — for every iteration budget and
every child oracle, i.e. without executing any iteration of the branching
loop. -/
theorem root_infeasible_sentinel (fuel : ℕ) (bxs bbs : List (List ℚ))
    (n : ℕ) (rhs epsilon : ℚ) (rootSolve : SolveResult)
    (childOracle : BBState → ChildResult × ChildResult)
    (hlen : bxs.length = n)
    (hub : (upper_bounds bxs).sum < rhs)
    (hsound : rootSolve.status = 2 →
        feasiblePoint n bxs rhs (rootSolve.xs.take n)) :
    spatialBB fuel bxs bbs n Problem.knapsack rhs epsilon rootSolve
      childOracle = SBBResult.zeroSentinel := by
  have hstat : rootSolve.status ≠ 2 := by
    intro hstat
    obtain ⟨hxlen, hbounds, hsum⟩ := hsound hstat
    have hle : (rootSolve.xs.take n).sum ≤ (upper_bounds bxs).sum := by
      refine sum_le_of_pointwise _ _ ?_ ?_
      · rw [hxlen, upper_bounds, List.length_map, hlen]
      · intro i hi
        rw [hxlen] at hi
        exact (hbounds i hi).2
    rw [hsum] at hle
    exact absurd (lt_of_le_of_lt hle hub) (lt_irrefl rhs)
  rw [spatialBB, if_pos hstat]

theorem root_infeasible_sentinel_witness :
    (([[(-1 : ℚ), 0, 1]] : List (List ℚ)).length = 1
      ∧ (upper_bounds [[(-1 : ℚ), 0, 1]]).sum < 5) ∧
    spatialBB 3 [[-1, 0, 1]] [[1, 0, 1]] 1 Problem.knapsack 5 (1/100)
      (SolveResult.mk 3 [] 0)
      (fun _ => (ChildResult.mk 0 [], ChildResult.mk 0 []))
      = SBBResult.zeroSentinel := by
  refine ⟨⟨by norm_num, by norm_num [upper_bounds]⟩, ?_⟩
  exact root_infeasible_sentinel 3 [[-1, 0, 1]] [[1, 0, 1]] 1 5 (1/100)
    (SolveResult.mk 3 [] 0)
    (fun _ => (ChildResult.mk 0 [], ChildResult.mk 0 []))
    (by norm_num) (by norm_num [upper_bounds])
    (by intro h; exact absurd h (by norm_num))

/-- Claim C4, divergence: on the S1 instance (`n = 1`, `f = |x|` on
`[-1, 1]` with breakpoints `(-1,1),(0,0),(1,1)`, knapsack `x = 0`), any
optimal root solve has x-part `0`, so `global_ub = Σ plf_values = 0` and
the frontier is non-empty; the very first evaluation of the loop condition
divides by `abs(global_ub) = 0`, so `spatialBB` raises `ZeroDivisionError`
instead of returning normally with 1 node, `global_ub = 0` and incumbent
`0`. -/
theorem s1_zero_division (fuel : ℕ) (epsilon : ℚ)
    (rootSolve : SolveResult)
    (childOracle : BBState → ChildResult × ChildResult)
    (hfuel : 1 ≤ fuel)
    (hstat : rootSolve.status = 2)
    (hsound : rootSolve.status = 2 →
        feasiblePoint 1 [[-1, 0, 1]] 0 (rootSolve.xs.take 1)) :
    spatialBB fuel [[-1, 0, 1]] [[1, 0, 1]] 1 Problem.knapsack 0 epsilon
      rootSolve childOracle = SBBResult.zeroDivisionError := by
  obtain ⟨hxlen, _hbounds, hsum⟩ := hsound hstat
  have hx0 : rootSolve.xs.getD 0 0 = 0 := by
    have h1 : rootSolve.xs.take 1 = [rootSolve.xs.getD 0 0] := by
      cases hxs : rootSolve.xs with
      | nil => rw [hxs] at hxlen; simp at hxlen
      | cons a t => simp [hxs]
    rw [h1] at hsum
    simpa using hsum
  have hplf : plfValues 1 [[-1, 0, 1]] [[1, 0, 1]] rootSolve.xs
      Problem.knapsack = [0] := by
    rw [plfValues, show List.range 1 = [0] by decide, List.map_cons,
      List.map_nil]
    rw [show (([[(-1 : ℚ), 0, 1]] : List (List ℚ)).getD 0 []) = [-1, 0, 1]
      from rfl]
    rw [show (([[(1 : ℚ), 0, 1]] : List (List ℚ)).getD 0 []) = [1, 0, 1]
      from rfl]
    rw [hx0]
    norm_num [getPLFvalue, bisect_right, interpAt]
  rw [spatialBB, if_neg (not_not_intro hstat), hplf]
  cases fuel with
  | zero => omega
  | succ f =>
    rw [sbbLoop]
    rw [if_neg (by simp : ¬ (BBState.mk [rootSolve.objval]
        (List.sum [0]) (rootSolve.xs.take 1) 1).nodes_lb = [])]
    rw [if_pos (by norm_num : (BBState.mk [rootSolve.objval]
        (List.sum [0]) (rootSolve.xs.take 1) 1).global_ub = 0)]

theorem s1_zero_division_witness :
    ((1 : ℕ) ≤ 1 ∧ (SolveResult.mk 2 [0, 0] 0).status = 2
      ∧ feasiblePoint 1 [[-1, 0, 1]] 0 ((SolveResult.mk 2 [0, 0] 0).xs.take 1)) ∧
    spatialBB 1 [[-1, 0, 1]] [[1, 0, 1]] 1 Problem.knapsack 0 (1/10000)
      (SolveResult.mk 2 [0, 0] 0)
      (fun _ => (ChildResult.mk 0 [], ChildResult.mk 0 []))
      = SBBResult.zeroDivisionError := by
  have hfeas : feasiblePoint 1 [[-1, 0, 1]] 0
      ((SolveResult.mk 2 [0, 0] 0).xs.take 1) := by
    refine ⟨by norm_num, ?_, by norm_num⟩
    intro i hi
    have hi0 : i = 0 := by omega
    subst hi0
    norm_num [lower_bounds, upper_bounds]
  refine ⟨⟨le_refl 1, rfl, hfeas⟩, ?_⟩
  exact s1_zero_division 1 (1/10000) (SolveResult.mk 2 [0, 0] 0)
    (fun _ => (ChildResult.mk 0 [], ChildResult.mk 0 []))
    (le_refl 1) rfl (fun _ => hfeas)

end SBB
